import Mathlib

/-!
Verification development for the vison2md server (`server/main.py`).

Strings are modelled as `List Char`.  Python string operations used by the
code (`re.sub` with the concrete patterns of `clean_output_text`,
`str.splitlines`, `str.strip`, `str.startswith`, substring tests) are given
executable embeddings below, each one a direct translation of the CPython
semantics for the concrete patterns appearing in the source.
-/

namespace V2M

/-- Characters stripped by Python `str.strip()` (Unicode whitespace). -/
def pyIsSpace (c : Char) : Bool :=
  c == ' ' || c == '\t' || c == '\n' || c == '\r' || c == '\x0b' || c == '\x0c' ||
  c == '\x1c' || c == '\x1d' || c == '\x1e' || c == '\x1f' || c == '\x85' ||
  c == '\xa0' || c == ' ' ||
  (0x2000 ≤ c.toNat && c.toNat ≤ 0x200a) ||
  c == ' ' || c == ' ' || c == ' ' || c == ' ' || c == '　'

/-- Line terminators recognised by Python `str.splitlines`. -/
def isLineBreakChar (c : Char) : Bool :=
  c == '\n' || c == '\r' || c == '\x0b' || c == '\x0c' ||
  c == '\x1c' || c == '\x1d' || c == '\x1e' || c == '\x85' ||
  c == ' ' || c == ' '

/-- Case-sensitive character match (used for plain pattern search). -/
def eqCS (p c : Char) : Bool := p == c

/-- Case-insensitive match of a pattern character `p` (which in the source's
patterns is a lower-case letter or a symbol) against a subject character,
as under `re.IGNORECASE`. -/
def eqCI (p c : Char) : Bool := p == c || p.toUpper == c

/-- `matchPre eqv p s`: the pattern `p` matches a prefix of `s` charwise. -/
def matchPre (eqv : Char → Char → Bool) : List Char → List Char → Bool
  | [],      _       => true
  | _ :: _,  []      => false
  | p :: ps, c :: cs => eqv p c && matchPre eqv ps cs

/-- Leftmost occurrence search: returns `(before, after)` where `before` is the
part of `s` strictly before the first `eqv`-match of `p` and `after` is the
part strictly after the matched span (Python `re` leftmost-match semantics). -/
def splitAtSubBy (eqv : Char → Char → Bool) (p : List Char) :
    List Char → Option (List Char × List Char)
  | [] => if matchPre eqv p [] then some ([], []) else none
  | c :: t =>
    if matchPre eqv p (c :: t) then some ([], (c :: t).drop p.length)
    else match splitAtSubBy eqv p t with
      | some (a, b) => some (c :: a, b)
      | none => none

/-- Boolean substring test (Python `in` on strings). -/
def hasSub (p s : List Char) : Bool := (splitAtSubBy eqCS p s).isSome

/-- Python `str.startswith`. -/
def startsWith (p s : List Char) : Bool := matchPre eqCS p s

/-- Python `str.splitlines` (accumulator worker): every terminator ends a
line, with `"\r\n"` counting as a single terminator (`prevCR` records that
the previous character was a line-ending `'\r'`, so that an immediately
following `'\n'` is part of the same terminator); a final segment without a
terminator forms a line only when non-empty. -/
def pySplitlinesAux (prevCR : Bool) (cur : List Char) : List Char → List (List Char)
  | [] => if cur.isEmpty then [] else [cur.reverse]
  | c :: rest =>
    if prevCR && c == '\n' then pySplitlinesAux false cur rest
    else if c == '\r' then cur.reverse :: pySplitlinesAux true [] rest
    else if isLineBreakChar c then cur.reverse :: pySplitlinesAux false [] rest
    else pySplitlinesAux false (c :: cur) rest

/-- Python `str.splitlines`. -/
def pySplitlines (s : List Char) : List (List Char) := pySplitlinesAux false [] s

/-- Python `str.lstrip()`. -/
def pyLstrip (s : List Char) : List Char := s.dropWhile pyIsSpace

/-- Python `str.rstrip()` (structural form: drop trailing whitespace). -/
def pyRstrip : List Char → List Char
  | [] => []
  | c :: r =>
    let r' := pyRstrip r
    if r'.isEmpty && pyIsSpace c then [] else c :: r'

/-- Python `str.strip()`. -/
def pyStrip (s : List Char) : List Char := pyLstrip (pyRstrip s)

/-- `"\n".join(...)` on the kept lines. -/
def joinNL : List (List Char) → List Char
  | [] => []
  | [l] => l
  | l :: ls => l ++ '\n' :: joinNL ls

/-- Worker for `re.sub(r"\n{3,}", "\n\n", text)` : `n` counts the pending run
of newline characters just consumed; a maximal run of `n` newlines is emitted
as `min n 2` newlines, which rewrites every run of three or more newlines to
exactly two and leaves shorter runs unchanged. -/
def collapseRunsAux : Nat → List Char → List Char
  | n, [] => List.replicate (min n 2) '\n'
  | n, c :: r =>
    if c == '\n' then collapseRunsAux (n + 1) r
    else List.replicate (min n 2) '\n' ++ c :: collapseRunsAux 0 r

/-- `re.sub(r"\n{3,}", "\n\n", text)`. -/
def collapseRuns (s : List Char) : List Char := collapseRunsAux 0 s

/-- Pattern `<think>` of `main.py:293-295`. -/
def thinkOpenPat : List Char := "<think>".toList

/-- Pattern `</think>` of `main.py:293`. -/
def thinkClosePat : List Char := "</think>".toList

/-- `re.sub(r'<think>.*?</think>', '', raw, flags=re.DOTALL | re.IGNORECASE)`
(`main.py:293`).  Leftmost, shortest match: the first (case-insensitive)
`<think>` paired with the first `</think>` after it; scanning resumes after
the removed span.  The fuel argument bounds the recursion; `s.length` always
suffices since every removal consumes at least one character. -/
def reSubThinkClosedAux : Nat → List Char → List Char
  | 0, s => s
  | fuel + 1, s =>
    match splitAtSubBy eqCI thinkOpenPat s with
    | none => s
    | some (a, rest) =>
      match splitAtSubBy eqCI thinkClosePat rest with
      | none => s
      | some (_, after) => a ++ reSubThinkClosedAux fuel after

/-- Step 1 of `clean_output_text` (`main.py:293`). -/
def reSubThinkClosed (s : List Char) : List Char := reSubThinkClosedAux s.length s

/-- Step 2 of `clean_output_text` (`main.py:295`):
`re.sub(r'<think>.*$', '', text, flags=re.DOTALL | re.IGNORECASE)` —
case-insensitive removal from the first remaining `<think>` to the end of
the text. -/
def reSubThinkOpenToEnd (s : List Char) : List Char :=
  match splitAtSubBy eqCI thinkOpenPat s with
  | none => s
  | some (a, _) => a

/-- The `==========` separator filtered at `main.py:311`. -/
def eqSeparatorLine : List Char := "==========".toList

/-- The scaffold-prefix / special-marker condition of `main.py:311-323`,
evaluated on the stripped line `L`. -/
def isNoiseLine (L : List Char) : Bool :=
  L == eqSeparatorLine ||
  startsWith "Prompt:".toList L ||
  startsWith "Generation:".toList L ||
  startsWith "Peak memory:".toList L ||
  startsWith "You are a helpful assistant".toList L ||
  startsWith "<|im_start|>".toList L ||
  startsWith "<|im_end|>".toList L ||
  startsWith "<|vision_start|>".toList L ||
  startsWith "<|vision_end|>".toList L ||
  startsWith "<|image_pad|>".toList L ||
  startsWith "Files:".toList L ||
  hasSub "请识别 pdf".toList L ||
  (hasSub "第".toList L && hasSub "页的内容如下".toList L)

/-- The instruction-echo phrase list of `main.py:327-330`. -/
def promptPhrases : List (List Char) :=
  ["请识别 pdf".toList, "根据 pdf".toList, "原来的格式".toList,
   "markdown 格式".toList, "生成对应页数".toList, "md 文档".toList,
   "请注意，由于原文档内容较长".toList]

/-- `main.py:327`: the line contains one of the instruction-echo phrases. -/
def hasPromptPhrase (L : List Char) : Bool :=
  promptPhrases.any (fun p => hasSub p L)

/-- The temp-path condition of `main.py:343-345`. -/
def isPathNoise (L : List Char) : Bool :=
  hasSub "/var/folders/".toList L ||
  hasSub "/tmp/".toList L ||
  hasSub "pdf_pages_".toList L ||
  (hasSub ".png".toList L && hasSub "Files:".toList L)

/-- The previous-line test guarding the code-fence skip (`main.py:336`). -/
def prevIsPageIntro : Option (List Char) → Bool
  | none => false
  | some pl => hasSub "第".toList pl && hasSub "页的内容如下".toList pl

/-- The line-filtering loop of `main.py:302-348`.  `prev` is the previous
original line (`lines[i-1]`), `none` at the first line. -/
def cleanLinesGo (prev : Option (List Char)) : List (List Char) → List (List Char)
  | [] => []
  | line :: rest =>
    let L := pyStrip line
    if L.isEmpty then line :: cleanLinesGo (some line) rest
    else if isNoiseLine L then cleanLinesGo (some line) rest
    else if hasPromptPhrase L then cleanLinesGo (some line) rest
    else if startsWith "```markdown".toList L || startsWith "```".toList L then
      if prevIsPageIntro prev then cleanLinesGo (some line) rest
      else line :: cleanLinesGo (some line) rest
    else if isPathNoise L then cleanLinesGo (some line) rest
    else line :: cleanLinesGo (some line) rest

/-- The full line filter of `clean_output_text`. -/
def cleanLines (ls : List (List Char)) : List (List Char) := cleanLinesGo none ls

/-- `main.py:355`: `re.sub(r'^.*?```markdown\s*', '', text, flags=re.DOTALL)` —
if ```` ```markdown ```` occurs, drop everything up to and including its first
occurrence plus the following whitespace run. -/
def stripLeadingCodeFence (s : List Char) : List Char :=
  match splitAtSubBy eqCS "```markdown".toList s with
  | none => s
  | some (_, after) => after.dropWhile pyIsSpace

/-- `main.py:356`: `re.sub(r'^.*?第.*?页的内容如下：\s*', '', text, flags=re.DOTALL)`.
The leftmost match takes the first `第` followed (anywhere later) by
`页的内容如下：`, ending after the earliest such occurrence plus trailing
whitespace; it exists iff some `第` precedes some `页的内容如下：`. -/
def stripLeadingPageIntro (s : List Char) : List Char :=
  match splitAtSubBy eqCS "第".toList s with
  | none => s
  | some (_, rest) =>
    match splitAtSubBy eqCS "页的内容如下：".toList rest with
    | none => s
    | some (_, after) => after.dropWhile pyIsSpace

/-- `clean_output_text` (`main.py:290-358`), step by step in source order. -/
def clean_output_text (raw : List Char) : List Char :=
  let t1 := reSubThinkClosed raw
  let t2 := reSubThinkOpenToEnd t1
  let kept := cleanLines (pySplitlines t2)
  let t3 := pyStrip (collapseRuns (joinNL kept))
  stripLeadingPageIntro (stripLeadingCodeFence t3)


/-! ### PDF batch pipeline (`process_pdf_with_progress`, `main.py:388-480`)

The inference backends (`run_api_generate`, `run_mlx_vlm_generate`) and the
PyMuPDF rasterization calls are I/O; they are modelled as oracle functions
from the page index to `Except`, where `.error` is a raised Python exception
carrying its message.  The strings appended to `batch_results`/`all_results`
are modelled as an `Entry` list together with the exact rendering of each
appended f-string, and the final markdown is their `"\n"`-join after the
summary, as in `main.py:473`. -/

/-- Decimal rendering of a number interpolated into an f-string. -/
def natChars (n : Nat) : List Char := (Nat.repr n).toList

/-- One element appended to `batch_results` / `all_results`. -/
inductive Entry
  | batchHeader (bi nb sp ep : Nat)
  | pageOk (i : Nat) (mdClean : List Char)
  | pageErr (i : Nat) (excMsg : List Char)
  | batchSep
deriving DecidableEq, Repr

/-- `error_msg` of `main.py:451`. -/
def pageErrMsg (i : Nat) (exc : List Char) : List Char :=
  "处理第 ".toList ++ natChars i ++ " 页时出错: ".toList ++ exc

/-- The exact string each `Entry` stands for (`main.py:416,445,452,460`). -/
def renderEntry : Entry → List Char
  | .batchHeader bi nb sp ep =>
      "## 批次 ".toList ++ natChars bi ++ "/".toList ++ natChars nb ++
      " (第 ".toList ++ natChars sp ++ "-".toList ++ natChars ep ++ " 页)\n".toList
  | .pageOk i md =>
      "## 第 ".toList ++ natChars i ++ " 页\n\n".toList ++ md ++ "\n\n---\n".toList
  | .pageErr i exc =>
      "## 第 ".toList ++ natChars i ++ " 页\n\n❌ ".toList ++
      pageErrMsg i exc ++ "\n\n---\n".toList
  | .batchSep => "\n---\n".toList

/-- Python `range(start, stop, step)` (for `step = 0` Python raises; the
guard returns `[]`, and every use below has `step ≥ 1`). -/
def pyRange (start stop step : Nat) : List Nat :=
  if step = 0 then []
  else (List.range ((stop - start + step - 1) / step)).map (fun k => start + k * step)

/-- The batch plan of `main.py:400-409`. -/
def mkBatches (total maxPages : Nat) : List (Nat × Nat) :=
  if total ≤ maxPages then [(0, total)]
  else (pyRange 0 total maxPages).map (fun s => (s, min (s + maxPages) total))

/-- On-disk scratch state: the `pdf_pages_` temp directory and the page
images currently inside it (by 1-based page number). -/
structure ScratchState where
  scratchDirExists : Bool
  images : List Nat
deriving DecidableEq, Repr

/-- The inner page loop of `main.py:418-454`.  Rasterization
(`load_page`/`get_pixmap`/`save`, lines 423-428) happens *outside* the
`try` of line 436, so a rasterization error propagates out of the loop;
an inference error is caught at line 450 and recorded inline. -/
def processPages (rasterize : Nat → Except (List Char) Unit)
    (inferPage : Nat → Except (List Char) (List Char)) :
    ScratchState → List Nat → Except (List Char) (List Entry) × ScratchState
  | st, [] => (.ok [], st)
  | st, p :: ps =>
    match rasterize p with
    | .error e => (.error e, st)
    | .ok _ =>
      let st1 : ScratchState := { st with images := st.images ++ [p + 1] }
      let step :=
        match inferPage p with
        | .ok raw => (Entry.pageOk (p + 1) (clean_output_text raw),
                      { st1 with images := st1.images.filter (fun q => q != p + 1) })
        | .error e => (Entry.pageErr (p + 1) e,
                       { st1 with images := st1.images.filter (fun q => q != p + 1) })
      match processPages rasterize inferPage step.2 ps with
      | (.ok rest, st2) => (.ok (step.1 :: rest), st2)
      | (.error e, st2) => (.error e, st2)

/-- The batch loop of `main.py:411-460`: per-batch header when there is more
than one batch, the page loop over `range(start_page, end_page)`, and a
`"\n---\n"` separator after every non-final batch. -/
def processBatches (rasterize : Nat → Except (List Char) Unit)
    (inferPage : Nat → Except (List Char) (List Char)) (nBatches : Nat) :
    ScratchState → Nat → List (Nat × Nat) → Except (List Char) (List Entry) × ScratchState
  | st, _, [] => (.ok [], st)
  | st, bi, (s, e) :: bs =>
    let header : List Entry :=
      if nBatches > 1 then [Entry.batchHeader (bi + 1) nBatches (s + 1) e] else []
    match processPages rasterize inferPage st (List.range' s (e - s)) with
    | (.error err, st1) => (.error err, st1)
    | (.ok pes, st1) =>
      let sep : List Entry := if bs.isEmpty then [] else [Entry.batchSep]
      match processBatches rasterize inferPage nBatches st1 (bi + 1) bs with
      | (.ok rest, st2) => (.ok (header ++ pes ++ sep ++ rest), st2)
      | (.error err, st2) => (.error err, st2)

/-- The page list of the table of contents (`main.py:469-470`:
`for i in range(1, total_pdf_pages + 1)`). -/
def tocList (total : Nat) : List Nat := List.range' 1 total

/-- One table-of-contents line (`main.py:470`). -/
def tocLine (i : Nat) : List Char :=
  "- [第 ".toList ++ natChars i ++ " 页](#第-".toList ++ natChars i ++ "-页)\n".toList

/-- The summary block of `main.py:462-471`. -/
def summaryText (pdfName : List Char) (origUrl : Option (List Char))
    (total nBatches : Nat) : List Char :=
  (match origUrl with
   | some u => "[原始文件](".toList ++ u ++ ")\n\n".toList
   | none => []) ++
  "# 文档解析：".toList ++ pdfName ++ "\n\n".toList ++
  "**处理摘要**: 共 ".toList ++ natChars total ++ " 页，分 ".toList ++
  natChars nBatches ++ " 个批次处理\n\n".toList ++
  "## 📋 文档目录\n\n".toList ++ ((tocList total).map tocLine).flatten ++
  "\n---\n\n".toList

/-- Successful result of the orchestrator: the merged markdown, the
structured `all_results` list and the table-of-contents page list. -/
structure PdfOk where
  merged : List Char
  entries : List Entry
  toc : List Nat
deriving Repr

/-- `process_pdf_with_progress` body and `finally` (`main.py:392-480`),
parameterised over a single per-page inference function.  `fitz.open`
succeeding is the precondition for reaching line 393 (`mkdtemp`), so the
model starts with the scratch directory created.  The `finally` clause
(`doc.close(); shutil.rmtree(tmp_dir, ignore_errors=True)`) removes the
scratch directory and everything inside it on both exit paths. -/
def processPdfCore (totalPages maxPages : Nat)
    (rasterize : Nat → Except (List Char) Unit)
    (inferPage : Nat → Except (List Char) (List Char))
    (pdfName : List Char) (origUrl : Option (List Char)) :
    Except (List Char) PdfOk × ScratchState :=
  let st0 : ScratchState := { scratchDirExists := true, images := [] }
  let batches := mkBatches totalPages maxPages
  let body := processBatches rasterize inferPage batches.length st0 0 batches
  let cleaned : ScratchState := { scratchDirExists := false, images := [] }
  match body.1 with
  | .error e => (.error e, cleaned)
  | .ok entries =>
    let merged := summaryText pdfName origUrl totalPages batches.length ++
      joinNL (entries.map renderEntry)
    (.ok { merged := merged, entries := entries, toc := tocList totalPages }, cleaned)

/-- Python truthiness of an optional string argument (`None` and `""` are
falsy), as tested by `if base_url and api_key and model_name`. -/
def truthyOpt : Option (List Char) → Bool
  | none => false
  | some s => !s.isEmpty

/-- `use_api = bool(base_url and api_key and model_name)` (`main.py:510,822`);
the same condition selects the backend at `main.py:371,437`. -/
def useApi (baseUrl apiKey modelName : Option (List Char)) : Bool :=
  truthyOpt baseUrl && truthyOpt apiKey && truthyOpt modelName

/-- `process_pdf_with_progress` with the per-page backend branch of
`main.py:437-442`: each page calls the remote API oracle when the three API
fields are truthy, otherwise the local MLX oracle (which is what uses
`model_path`). -/
def process_pdf_with_progress (totalPages maxPages : Nat)
    (baseUrl apiKey modelName : Option (List Char))
    (rasterize : Nat → Except (List Char) Unit)
    (inferApi inferLocal : Nat → Except (List Char) (List Char))
    (pdfName : List Char) (origUrl : Option (List Char)) :
    Except (List Char) PdfOk × ScratchState :=
  processPdfCore totalPages maxPages rasterize
    (fun p => if useApi baseUrl apiKey modelName then inferApi p else inferLocal p)
    pdfName origUrl

/-- The tail of `process_single_image` after the backend call produced
`md_raw` (`main.py:378-385`): `clean_output_text`, then the optional
original-file header; a raised backend exception propagates. -/
def singleImageFrom (res : Except (List Char) (List Char))
    (origUrl : Option (List Char)) : Except (List Char) (List Char) :=
  match res with
  | .error e => .error e
  | .ok raw =>
    let mdClean := clean_output_text raw
    .ok ((match origUrl with
          | some u => "[原始文件](".toList ++ u ++ ")\n\n".toList
          | none => []) ++ mdClean)

/-- `process_single_image` (`main.py:370-385`): one backend call selected by
the truthiness test of line 371 (remote API when all three API fields are
truthy, else local MLX with `model_path`), then the common tail. -/
def process_single_image (baseUrl apiKey modelName : Option (List Char))
    (apiRes localRes : Except (List Char) (List Char))
    (origUrl : Option (List Char)) : Except (List Char) (List Char) :=
  singleImageFrom (if useApi baseUrl apiKey modelName then apiRes else localRes) origUrl

/-- The page number a `## 第 i 页` section stands for, if the entry is one. -/
def entryPage : Entry → Option Nat
  | .pageOk i _ => some i
  | .pageErr i _ => some i
  | _ => none

/-- The sequence of page-section numbers of `all_results`, in order. -/
def pageIndices (es : List Entry) : List Nat := es.filterMap entryPage

/-- The page section the loop body records for page index `p` (0-based):
`pageOk` with the sanitized text on inference success, `pageErr` with the
exception message on inference failure (`main.py:436-454`). -/
def pageEntryOf (inferPage : Nat → Except (List Char) (List Char)) (p : Nat) : Entry :=
  match inferPage p with
  | .ok raw => .pageOk (p + 1) (clean_output_text raw)
  | .error e => .pageErr (p + 1) e

/-! ### Configuration store (`save_configs`, `main.py:198-288`;
`load_saved_configs`, `main.py:188-196`; history, `main.py:37-51,899-904`) -/

/-- The two named preset collections of `saved_configs.json`; entries are
opaque serialized records. -/
structure Configs where
  models : List (List Char)
  prompts : List (List Char)
deriving DecidableEq, Repr

/-- Outcome of one attempt of "method 1" (direct write + fsync + read-back
verify, `main.py:217-229`): `success` = written and read back equal;
`busy` / `osErr` = an `OSError/IOError` whose message does / does not
contain `"Device or resource busy"`; `fallthru` = a non-OS exception (data
mismatch or JSON decode error), absorbed by the bare `except: pass` of
line 240, which falls through to method 2. -/
inductive Method1Res
  | success
  | busy (msg : List Char)
  | osErr (msg : List Char)
  | fallthru (msg : List Char)
deriving DecidableEq, Repr

/-- Outcome of "method 2" (temp file + fsync + `mv`/`shutil.move`,
`main.py:244-265`): `success` = the temp content atomically moved into
place; `raiseErr` = some step raised, propagating to the outer handler. -/
inductive Method2Res
  | success
  | raiseErr (msg : List Char)
deriving DecidableEq, Repr

/-- Observable file-system operations of one `save_configs` run. -/
inductive COp
  | directWrite
  | verifyRead
  | tmpWrite
  | atomicMove
  | finalVerify
deriving DecidableEq, Repr

/-- `"Device or resource busy"` needle of `main.py:232,281`. -/
def busyNeedle : List Char := "Device or resource busy".toList

/-- `"Permission denied"` needle of `main.py:283`. -/
def permNeedle : List Char := "Permission denied".toList

/-- `"read-only"` needle of `main.py:285` (tested on the lower-cased message). -/
def roNeedle : List Char := "read-only".toList

/-- Message of the exception raised at `main.py:234` when the direct write is
still busy on the final attempt. -/
def persistentLockMsg : List Char := "文件被持续锁定，需要检查其他进程是否在访问配置文件".toList

/-- User-facing message picked at `main.py:282`. -/
def cfgBusyFriendly : List Char := "配置被锁定 - 请等待其他操作完成后再试".toList

/-- User-facing message picked at `main.py:284`. -/
def cfgPermFriendly : List Char := "权限不足 - 检查Docker文件挂载权限".toList

/-- User-facing message picked at `main.py:286`. -/
def cfgRoFriendly : List Char := "配置目录只读 - 检查Docker卷权限设置".toList

/-- The `f"无法保存配置: {error_msg}"` detail prefix of `main.py:288`. -/
def cantSavePre : List Char := "无法保存配置: ".toList

/-- Python `str.lower()` (ASCII part, enough for the needles used). -/
def toLowerChars (s : List Char) : List Char := s.map Char.toLower

/-- The error-message mapping of the outer handler (`main.py:279-286`). -/
def friendlyErrMsg (m : List Char) : List Char :=
  if hasSub busyNeedle m then cfgBusyFriendly
  else if hasSub permNeedle m then cfgPermFriendly
  else if hasSub roNeedle (toLowerChars m) then cfgRoFriendly
  else m

/-- Result of a `save_configs` run: the returned/raised outcome, the final
parsed content of `saved_configs.json` (`none` = unknown/garbage), and the
file-system operations performed in order. -/
structure SaveOutcome where
  result : Except (List Char) Unit
  file : Option Configs
  ops : List COp
deriving Repr

/-- The `for attempt in range(max_retries)` loop of `save_configs`
(`main.py:208-288`), `max_retries = 3`.  Per attempt: method 1 writes the
live config file *in place* and read-back-verifies it; on a busy `OSError`
it retries (or raises the persistent-lock exception on the last attempt,
line 234); on another `OSError` it re-raises to the outer handler; on a
non-OS failure it falls through to method 2 (temp file + atomic move +
final read-back verify).  The outer handler (`main.py:274-288`) retries
while `attempt < max_retries - 1`, else raises the mapped `HTTPException`.
On `busy`/`osErr` the live file is modelled unchanged (the failed open);
on `fallthru` its content is unknown (`none`), matching a failed
verification. -/
def saveAttemptLoop (configs : Configs) (m1 : Nat → Method1Res) (m2 : Nat → Method2Res) :
    List Nat → Option Configs → List COp → SaveOutcome
  | [], file, ops => { result := .error [], file := file, ops := ops }
  | a :: rest, file, ops =>
    match m1 a with
    | .success =>
      { result := .ok (), file := some configs, ops := ops ++ [.directWrite, .verifyRead] }
    | .busy _msg =>
      if a ≥ 2 then
        { result := .error (cantSavePre ++ friendlyErrMsg persistentLockMsg),
          file := file, ops := ops ++ [.directWrite] }
      else
        saveAttemptLoop configs m1 m2 rest file (ops ++ [.directWrite])
    | .osErr msg =>
      if a < 2 then
        saveAttemptLoop configs m1 m2 rest file (ops ++ [.directWrite])
      else
        { result := .error (cantSavePre ++ friendlyErrMsg msg),
          file := file, ops := ops ++ [.directWrite] }
    | .fallthru _msg =>
      match m2 a with
      | .success =>
        let file1 : Option Configs := some configs
        if file1 = some configs then
          { result := .ok (), file := file1,
            ops := ops ++ [.directWrite, .verifyRead, .tmpWrite, .atomicMove, .finalVerify] }
        else if a < 2 then
          saveAttemptLoop configs m1 m2 rest file1
            (ops ++ [.directWrite, .verifyRead, .tmpWrite, .atomicMove, .finalVerify])
        else
          { result := .error (cantSavePre ++ friendlyErrMsg "文件验证失败".toList),
            file := file1,
            ops := ops ++ [.directWrite, .verifyRead, .tmpWrite, .atomicMove, .finalVerify] }
      | .raiseErr msg =>
        if a < 2 then
          saveAttemptLoop configs m1 m2 rest none
            (ops ++ [.directWrite, .verifyRead, .tmpWrite])
        else
          { result := .error (cantSavePre ++ friendlyErrMsg msg),
            file := none, ops := ops ++ [.directWrite, .verifyRead, .tmpWrite] }

/-- `save_configs(configs)` (`main.py:198-288`) with `max_retries = 3`. -/
def save_configs (configs : Configs) (m1 : Nat → Method1Res) (m2 : Nat → Method2Res)
    (initialFile : Option Configs) : SaveOutcome :=
  saveAttemptLoop configs m1 m2 [0, 1, 2] initialFile []

/-! ### History / config loading (`main.py:37-51,188-196`) -/

/-- What reading + JSON-parsing a file can yield: the file is missing, the
read raised, the JSON parse raised, or a parsed value. -/
inductive FileRead (α : Type)
  | absent
  | readError
  | parseError
  | value (a : α)
deriving DecidableEq, Repr

/-- One history record (only the `id` field is inspected by the code). -/
structure HistEntry where
  id : List Char
  payload : List Char
deriving DecidableEq, Repr

/-- `load_history` (`main.py:37-44`): missing file returns `[]` at line 42;
any exception (read or parse) returns `[]` at line 44. -/
def load_history : FileRead (List HistEntry) → List HistEntry
  | .value l => l
  | .absent => []
  | .readError => []
  | .parseError => []

/-- The `{"models": [], "prompts": []}` default of `main.py:194,196`. -/
def defaultConfigs : Configs := { models := [], prompts := [] }

/-- `load_saved_configs` (`main.py:188-196`). -/
def load_saved_configs : FileRead Configs → Configs
  | .value c => c
  | .absent => defaultConfigs
  | .readError => defaultConfigs
  | .parseError => defaultConfigs

/-- `save_history` (`main.py:46-51`): `open(..., 'w')` + `json.dump`
truncates and replaces the file content with the new list (successful-write
path; a raised write error becomes an HTTPException and writes nothing). -/
def save_history (h : List HistEntry) : FileRead (List HistEntry) := .value h

/-- The `DELETE /api/history` endpoint (`main.py:899-904`): load, filter out
the record with the given id, save. -/
def delete_history_record (file : FileRead (List HistEntry)) (rid : List Char) :
    FileRead (List HistEntry) :=
  save_history ((load_history file).filter (fun h => h.id != rid))

/-- The configs value the `POST /api/save-config` endpoint (model branch,
`main.py:735-762`) passes to `save_configs`: the loaded configs with the new
model preset appended. -/
def save_config_endpoint_model (file : FileRead Configs) (modelCfg : List Char) : Configs :=
  let configs := load_saved_configs file
  { configs with models := configs.models ++ [modelCfg] }

/-! ### Specification-side auxiliary definitions (used to state and prove
the properties; they compute expected shapes of the pipeline's outputs) -/

/-- The `all_results` list the batch loop produces on an all-ok rasterization
run: per-batch header (when more than one batch), the page entries of the
batch, and a separator after every non-final batch. -/
def batchesEntries (f : Nat → Except (List Char) (List Char)) (nB : Nat) :
    Nat → List (Nat × Nat) → List Entry
  | _, [] => []
  | bi, (s, e) :: bs =>
    (if nB > 1 then [Entry.batchHeader (bi + 1) nB (s + 1) e] else []) ++
    (List.range' s (e - s)).map (pageEntryOf f) ++
    (if bs.isEmpty then [] else [Entry.batchSep]) ++
    batchesEntries f nB (bi + 1) bs

/-- The page-section entries of `all_results`, with headers and separators
filtered out. -/
def pageEntries (es : List Entry) : List Entry :=
  es.filter (fun e => (entryPage e).isSome)

/-- A stripped line `L` passes all three context-free drop tests of the
line filter (`main.py:311-345`). -/
def keptLine (L : List Char) : Bool :=
  !(isNoiseLine L) && !(hasPromptPhrase L) && !(isPathNoise L)

/-- The sanitizer up to and including the `strip()` of `main.py:352`, i.e.
`clean_output_text` without the two final prefix-stripping substitutions of
`main.py:355-356`. -/
def cleanCore (s : List Char) : List Char :=
  pyStrip (collapseRuns (joinNL (cleanLines (pySplitlines
    (reSubThinkOpenToEnd (reSubThinkClosed s))))))

/-- A non-empty line made up entirely of `'-'` characters — the
"separator of dashes" named by the specification. -/
def isDashSeparator (L : List Char) : Bool :=
  !L.isEmpty && L.all (fun c => c == '-')

/-- Prepending pending characters to the first line of a split (the shape
`pySplitlinesAux` produces: its accumulator extends the first line). -/
def prepL (p : List Char) : List (List Char) → List (List Char)
  | [] => if p.isEmpty then [] else [p]
  | l :: ls => (p ++ l) :: ls

/-- The triple-newline pattern of `re.sub(r"\n{3,}", ...)`. -/
def nl3 : List Char := ['\n', '\n', '\n']

/-- Effect of `str.lstrip` on a line list: drop leading whitespace-only
lines, left-strip the first surviving line. -/
def lstripLines : List (List Char) → List (List Char)
  | [] => []
  | l :: ls => if (pyLstrip l).isEmpty then lstripLines ls else pyLstrip l :: ls

/-- Effect of `str.rstrip` on a line list: drop trailing whitespace-only
lines, right-strip the last surviving line. -/
def rstripLines : List (List Char) → List (List Char)
  | [] => []
  | l :: ls =>
    match rstripLines ls with
    | [] => if (pyRstrip l).isEmpty then [] else [pyRstrip l]
    | ls2 => l :: ls2

/-- Every line-terminator character in `s` is a plain `'\n'`. -/
def onlyNL (s : List Char) : Prop :=
  ∀ c ∈ s, isLineBreakChar c = true → c = '\n'

/-! ### Helper lemmas about the batch pipeline -/

/-- When rasterization succeeds on all pages, the page loop starting from an
image-free scratch state records one entry per page (as `pageEntryOf`) and
returns with the scratch state image-free again (each page image is unlinked
after its page is processed). -/
theorem processPages_all_ok (rasterize : Nat → Except (List Char) Unit)
    (hr : ∀ p, rasterize p = .ok ()) (f : Nat → Except (List Char) (List Char))
    (ps : List Nat) : ∀ b : Bool,
    processPages rasterize f ⟨b, []⟩ ps = (.ok (ps.map (pageEntryOf f)), ⟨b, []⟩) := by
  induction ps with
  | nil => intro b; simp [processPages]
  | cons p ps ih =>
    intro b
    cases h : f p <;>
      simp [processPages, hr p, h, pageEntryOf, List.filter_cons, ih b]

theorem processBatches_all_ok (rasterize : Nat → Except (List Char) Unit)
    (hr : ∀ p, rasterize p = .ok ()) (f : Nat → Except (List Char) (List Char))
    (nB : Nat) (bs : List (Nat × Nat)) : ∀ (bi : Nat) (b : Bool),
    processBatches rasterize f nB ⟨b, []⟩ bi bs =
      (.ok (batchesEntries f nB bi bs), ⟨b, []⟩) := by
  induction bs with
  | nil => intro bi b; simp [processBatches, batchesEntries]
  | cons pr bs ih =>
    intro bi b
    obtain ⟨s, e⟩ := pr
    simp [processBatches, batchesEntries, processPages_all_ok rasterize hr f, ih]

theorem entryPage_pageEntryOf (f : Nat → Except (List Char) (List Char)) (p : Nat) :
    entryPage (pageEntryOf f p) = some (p + 1) := by
  cases h : f p <;> simp [pageEntryOf, h, entryPage]

theorem pageIndices_map_pageEntryOf (f : Nat → Except (List Char) (List Char))
    (l : List Nat) :
    pageIndices (l.map (pageEntryOf f)) = l.map (fun p => p + 1) := by
  induction l with
  | nil => rfl
  | cons p l ih =>
    simp only [List.map_cons, pageIndices, List.filterMap_cons,
      entryPage_pageEntryOf f p] at *
    rw [ih]

theorem pageIndices_batchesEntries (f : Nat → Except (List Char) (List Char))
    (nB : Nat) (bs : List (Nat × Nat)) : ∀ bi : Nat,
    pageIndices (batchesEntries f nB bi bs) =
      (bs.map (fun pr => List.range' (pr.1 + 1) (pr.2 - pr.1))).flatten := by
  induction bs with
  | nil => intro bi; simp [batchesEntries, pageIndices]
  | cons pr bs ih =>
    intro bi
    obtain ⟨s, e⟩ := pr
    have hhdr : pageIndices
        (if nB > 1 then [Entry.batchHeader (bi + 1) nB (s + 1) e] else []) = [] := by
      split <;> simp [pageIndices, entryPage]
    have hsep : pageIndices (if bs.isEmpty then ([] : List Entry) else [Entry.batchSep]) = [] := by
      split <;> simp [pageIndices, entryPage]
    simp only [batchesEntries, pageIndices, List.filterMap_append, List.map_cons,
      List.flatten_cons]
    simp only [pageIndices] at hhdr hsep ih
    rw [hhdr, hsep, ih (bi + 1)]
    have := pageIndices_map_pageEntryOf f (List.range' s (e - s))
    simp only [pageIndices] at this
    rw [this]
    have : (List.range' s (e - s)).map (fun p => p + 1) = List.range' (s + 1) (e - s) := by
      have h1 : (fun p : Nat => p + 1) = (fun p : Nat => 1 + p) := by
        funext p; omega
      rw [h1, List.map_add_range']
      rw [Nat.add_comm 1 s]
    simp [this]

/-- Flattening `K` full batches of `B` pages (1-based page numbers). -/
theorem flatten_full_batches (B : Nat) (K : Nat) :
    ((List.range K).map (fun k => List.range' (k * B + 1) B)).flatten =
      List.range' 1 (K * B) := by
  induction K with
  | zero => simp
  | succ K ih =>
    rw [List.range_succ, List.map_append, List.flatten_append, ih]
    simp only [List.map_cons, List.map_nil, List.flatten_cons, List.flatten_nil,
      List.append_nil]
    have h := List.range'_append 1 (K * B) B 1
    rw [one_mul, Nat.add_comm 1 (K * B)] at h
    rw [Nat.succ_mul, Nat.add_comm B (K * B)] at *
    exact h

/-- Flattening the page ranges of a ceil-partitioned batch plan gives the
full 1-based page range. -/
theorem flatten_batches_eq_range (B : Nat) (_hB : 1 ≤ B) (K : Nat) : ∀ N : Nat,
    N ≤ K * B → K * B < N + B →
    ((List.range K).map
      (fun k => List.range' (k * B + 1) (min (k * B + B) N - k * B))).flatten =
      List.range' 1 N := by
  induction K with
  | zero =>
    intro N h1 _
    have hN : N = 0 := by simpa using h1
    subst hN; simp
  | succ K ih =>
    intro N h1 h2
    rw [Nat.succ_mul] at h1 h2
    have hKB : K * B < N := Nat.lt_of_add_lt_add_right h2
    rw [List.range_succ, List.map_append, List.flatten_append]
    have hfull : (List.range K).map
        (fun k => List.range' (k * B + 1) (min (k * B + B) N - k * B)) =
        (List.range K).map (fun k => List.range' (k * B + 1) B) := by
      apply List.map_congr_left
      intro k hk
      have hk' : k < K := List.mem_range.mp hk
      have h3 : k * B + B ≤ K * B := by
        have h4 : (k + 1) * B ≤ K * B := Nat.mul_le_mul_right B hk'
        rwa [Nat.succ_mul] at h4
      have h5 : k * B + B ≤ N := le_trans h3 (le_of_lt hKB)
      rw [Nat.min_eq_left h5, Nat.add_sub_cancel_left]
    rw [hfull, flatten_full_batches]
    have hlast : min (K * B + B) N = N := Nat.min_eq_right h1
    simp only [List.map_cons, List.map_nil, List.flatten_cons, List.flatten_nil,
      List.append_nil, hlast]
    have h := List.range'_append 1 (K * B) (N - K * B) 1
    rw [one_mul, Nat.add_comm 1 (K * B), Nat.sub_add_cancel (le_of_lt hKB)] at h
    exact h

/-- The batch plan, in closed form: `ceil(N/B)` batches, the `k`-th covering
`[k*B, min(k*B+B, N))`. -/
theorem mkBatches_eq (N B : Nat) (hN : 1 ≤ N) (hB : 1 ≤ B) :
    mkBatches N B =
      (List.range ((N + B - 1) / B)).map (fun k => (k * B, min (k * B + B) N)) := by
  unfold mkBatches
  by_cases h : N ≤ B
  · rw [if_pos h]
    have hK : (N + B - 1) / B = 1 := by
      apply Nat.div_eq_of_lt_le <;> omega
    rw [hK]
    have : List.range 1 = [0] := by decide
    rw [this]
    simp [Nat.min_eq_right h]
  · rw [if_neg h]
    unfold pyRange
    rw [if_neg (by omega : ¬ B = 0)]
    rw [List.map_map]
    simp [Function.comp_def]

theorem flatten_mkBatches_shifted (N B : Nat) (hB : 1 ≤ B) :
    ((mkBatches N B).map (fun pr => List.range' (pr.1 + 1) (pr.2 - pr.1))).flatten =
      List.range' 1 N := by
  by_cases h : N ≤ B
  · simp [mkBatches, if_pos h]
  · rw [mkBatches, if_neg h]
    unfold pyRange
    rw [if_neg (by omega : ¬ B = 0), List.map_map, List.map_map]
    simp only [Nat.sub_zero]
    have hcomp : (((fun pr : Nat × Nat => List.range' (pr.1 + 1) (pr.2 - pr.1)) ∘
        (fun s => (s, min (s + B) N))) ∘ (fun k => 0 + k * B)) =
        (fun k => List.range' (k * B + 1) (min (k * B + B) N - k * B)) := by
      funext k; simp [Function.comp_def]
    rw [hcomp]
    have e := Nat.div_add_mod (N + B - 1) B
    have hm := Nat.mod_lt (N + B - 1) (show 0 < B by omega)
    rw [Nat.mul_comm B ((N + B - 1) / B)] at e
    apply flatten_batches_eq_range B hB ((N + B - 1) / B) N
    · generalize hM : (N + B - 1) / B * B = M at e ⊢
      generalize hR : (N + B - 1) % B = r at e hm
      omega
    · generalize hM : (N + B - 1) / B * B = M at e ⊢
      generalize hR : (N + B - 1) % B = r at e hm
      omega

theorem pageIndices_mkBatches (N B : Nat) (hB : 1 ≤ B)
    (f : Nat → Except (List Char) (List Char)) (nB bi : Nat) :
    pageIndices (batchesEntries f nB bi (mkBatches N B)) = List.range' 1 N := by
  rw [pageIndices_batchesEntries]
  exact flatten_mkBatches_shifted N B hB

theorem pageEntries_batchesEntries (f : Nat → Except (List Char) (List Char))
    (nB : Nat) (bs : List (Nat × Nat)) : ∀ bi : Nat,
    pageEntries (batchesEntries f nB bi bs) =
      (bs.map (fun pr => (List.range' pr.1 (pr.2 - pr.1)).map (pageEntryOf f))).flatten := by
  induction bs with
  | nil => intro bi; simp [batchesEntries, pageEntries]
  | cons pr bs ih =>
    intro bi
    obtain ⟨s, e⟩ := pr
    have hhdr : pageEntries
        (if nB > 1 then [Entry.batchHeader (bi + 1) nB (s + 1) e] else []) = [] := by
      split <;> simp [pageEntries, entryPage]
    have hsep : pageEntries (if bs.isEmpty then ([] : List Entry) else [Entry.batchSep]) = [] := by
      split <;> simp [pageEntries, entryPage]
    have hpages : pageEntries ((List.range' s (e - s)).map (pageEntryOf f)) =
        (List.range' s (e - s)).map (pageEntryOf f) := by
      unfold pageEntries
      rw [List.filter_eq_self]
      intro a ha
      obtain ⟨p, _, rfl⟩ := List.mem_map.mp ha
      simp [entryPage_pageEntryOf]
    simp only [batchesEntries, pageEntries, List.filter_append, List.map_cons,
      List.flatten_cons]
    simp only [pageEntries] at hhdr hsep hpages ih
    rw [hhdr, hsep, hpages, ih (bi + 1)]
    simp

/-- Flattening the 0-based page ranges of the batch plan. -/
theorem flatten_mkBatches_ranges (N B : Nat) (hB : 1 ≤ B) :
    ((mkBatches N B).map (fun pr => List.range' pr.1 (pr.2 - pr.1))).flatten =
      List.range' 0 N := by
  have hinj : Function.Injective (fun x : Nat => x + 1) := fun a b h => by simpa using h
  have hsucc : (fun p : Nat => p + 1) = (fun p : Nat => 1 + p) := by funext p; omega
  apply List.map_injective_iff.mpr hinj
  have h1 : List.map (fun x => x + 1)
      (((mkBatches N B).map (fun pr => List.range' pr.1 (pr.2 - pr.1))).flatten) =
      List.range' 1 N := by
    rw [List.map_flatten, List.map_map]
    have hcomp : (List.map (fun x : Nat => x + 1) ∘
        fun pr : Nat × Nat => List.range' pr.1 (pr.2 - pr.1)) =
        (fun pr : Nat × Nat => List.range' (pr.1 + 1) (pr.2 - pr.1)) := by
      funext pr
      simp only [Function.comp_def]
      rw [hsucc, List.map_add_range', Nat.add_comm 1 pr.1]
    rw [hcomp, flatten_mkBatches_shifted N B hB]
  have h2 : List.map (fun x : Nat => x + 1) (List.range' 0 N) = List.range' 1 N := by
    rw [hsucc, List.map_add_range']
  rw [h1, h2]

theorem pageEntries_mkBatches (N B : Nat) (hB : 1 ≤ B)
    (f : Nat → Except (List Char) (List Char)) (nB bi : Nat) :
    pageEntries (batchesEntries f nB bi (mkBatches N B)) =
      (List.range' 0 N).map (pageEntryOf f) := by
  rw [pageEntries_batchesEntries]
  have : (mkBatches N B).map
      (fun pr => (List.range' pr.1 (pr.2 - pr.1)).map (pageEntryOf f)) =
      ((mkBatches N B).map (fun pr => List.range' pr.1 (pr.2 - pr.1))).map
        (List.map (pageEntryOf f)) := by
    rw [List.map_map]; rfl
  rw [this, ← List.map_flatten, flatten_mkBatches_ranges N B hB]

/-- If the first page's rasterization raises, the whole job aborts with that
exception (the rasterization calls sit before the per-page `try`). -/
theorem processPdfCore_raster_abort (N B : Nat) (hN : 1 ≤ N) (hB : 1 ≤ B)
    (rast : Nat → Except (List Char) Unit) (e : List Char) (h0 : rast 0 = .error e)
    (f : Nat → Except (List Char) (List Char)) (pdfName : List Char)
    (origUrl : Option (List Char)) :
    (processPdfCore N B rast f pdfName origUrl).1 = .error e := by
  obtain ⟨E, bs', hbs, hE⟩ : ∃ E bs', mkBatches N B = (0, E) :: bs' ∧ 1 ≤ E := by
    by_cases h : N ≤ B
    · exact ⟨N, [], by simp [mkBatches, h], hN⟩
    · refine ⟨min B N, ((List.range ((N + B - 1) / B - 1)).map Nat.succ).map
        (fun k => (k * B, min (k * B + B) N)), ?_, Nat.le_min.mpr ⟨hB, hN⟩⟩
      rw [mkBatches_eq N B hN hB]
      have hK : 1 ≤ (N + B - 1) / B :=
        (Nat.one_le_div_iff (by omega)).mpr (by omega)
      obtain ⟨K', hK'⟩ : ∃ K', (N + B - 1) / B = K' + 1 :=
        ⟨(N + B - 1) / B - 1, by omega⟩
      rw [hK', List.range_succ_eq_map, List.map_cons]
      simp [hK']
  obtain ⟨E', rfl⟩ : ∃ E', E = E' + 1 := ⟨E - 1, by omega⟩
  unfold processPdfCore
  rw [hbs]
  simp only [processBatches, Nat.sub_zero, List.range'_succ, processPages, h0]

/-- Packaged all-rasterization-ok run of the orchestrator core. -/
theorem processPdfCore_all_ok (N B : Nat) (rasterize : Nat → Except (List Char) Unit)
    (hr : ∀ p, rasterize p = .ok ()) (f : Nat → Except (List Char) (List Char))
    (pdfName : List Char) (origUrl : Option (List Char)) :
    processPdfCore N B rasterize f pdfName origUrl =
      (.ok { merged := summaryText pdfName origUrl N (mkBatches N B).length ++
               joinNL ((batchesEntries f (mkBatches N B).length 0 (mkBatches N B)).map
                 renderEntry),
             entries := batchesEntries f (mkBatches N B).length 0 (mkBatches N B),
             toc := tocList N },
       ⟨false, []⟩) := by
  simp only [processPdfCore, processBatches_all_ok rasterize hr f]

theorem truthyOpt_eq_true (o : Option (List Char)) :
    truthyOpt o = true ↔ ∃ s, o = some s ∧ s ≠ [] := by
  cases o with
  | none => simp [truthyOpt]
  | some s => simp [truthyOpt, List.isEmpty_iff]

/-! ### Helper lemmas about substring search -/

theorem matchPre_eqCS_append (p v : List Char) : matchPre eqCS p (p ++ v) = true := by
  induction p with
  | nil => rfl
  | cons c cs ih => simp [matchPre, eqCS, ih]

theorem hasSub_of_matchPre (p s : List Char) (h : matchPre eqCS p s = true) :
    hasSub p s = true := by
  cases s <;> simp [hasSub, splitAtSubBy, h]

theorem hasSub_cons_of (p : List Char) (c : Char) (t : List Char)
    (h : hasSub p t = true) : hasSub p (c :: t) = true := by
  obtain ⟨pr, hpr⟩ := Option.isSome_iff_exists.mp h
  cases hm : matchPre eqCS p (c :: t) with
  | true => simp [hasSub, splitAtSubBy, hm]
  | false => simp [hasSub, splitAtSubBy, hm, hpr]

theorem hasSub_append_self (p : List Char) : ∀ u v, hasSub p (u ++ p ++ v) = true := by
  intro u
  induction u with
  | nil =>
    intro v
    simpa using hasSub_of_matchPre p (p ++ v) (matchPre_eqCS_append p v)
  | cons c u ih =>
    intro v
    simpa using hasSub_cons_of p c (u ++ p ++ v) (ih v)

theorem hasSub_of_infix (p s : List Char) (h : ∃ u v, s = u ++ p ++ v) :
    hasSub p s = true := by
  obtain ⟨u, v, rfl⟩ := h
  exact hasSub_append_self p u v

theorem matchPre_append_mono (eqv : Char → Char → Bool) (p : List Char) :
    ∀ u w, matchPre eqv p u = true → matchPre eqv p (u ++ w) = true := by
  induction p with
  | nil => intro u w _; rfl
  | cons c cs ih =>
    intro u w h
    cases u with
    | nil => exact absurd h (by simp [matchPre])
    | cons d ds =>
      simp only [matchPre, Bool.and_eq_true, List.cons_append] at h ⊢
      exact ⟨h.1, ih ds w h.2⟩

theorem splitAtSubBy_eq_some (eqv : Char → Char → Bool) (p : List Char) :
    ∀ s a b, splitAtSubBy eqv p s = some (a, b) →
      ∃ t, s = a ++ t ∧ matchPre eqv p t = true ∧ b = t.drop p.length := by
  intro s
  induction s with
  | nil =>
    intro a b h
    by_cases hm : matchPre eqv p []
    · simp [splitAtSubBy, hm] at h
      obtain ⟨rfl, rfl⟩ := h
      exact ⟨[], rfl, hm, by simp⟩
    · simp [splitAtSubBy, hm] at h
  | cons c t ih =>
    intro a b h
    by_cases hm : matchPre eqv p (c :: t)
    · simp [splitAtSubBy, hm] at h
      obtain ⟨rfl, rfl⟩ := h
      exact ⟨c :: t, rfl, hm, rfl⟩
    · cases hrec : splitAtSubBy eqv p t with
      | none => simp [splitAtSubBy, hm, hrec] at h
      | some pr =>
        obtain ⟨a', b'⟩ := pr
        simp [splitAtSubBy, hm, hrec] at h
        obtain ⟨rfl, rfl⟩ := h
        obtain ⟨tt, htt, hmt, hdrop⟩ := ih a' b' hrec
        exact ⟨tt, by rw [htt]; rfl, hmt, hdrop⟩

theorem splitAtSubBy_none_of_head (eqv : Char → Char → Bool) (p0 : Char)
    (pr : List Char) (s : List Char) (h : ∀ c ∈ s, eqv p0 c = false) :
    splitAtSubBy eqv (p0 :: pr) s = none := by
  induction s with
  | nil => simp [splitAtSubBy, matchPre]
  | cons c t ih =>
    have hc : eqv p0 c = false := h c (by simp)
    have hm : matchPre eqv (p0 :: pr) (c :: t) = false := by simp [matchPre, hc]
    simp [splitAtSubBy, hm, ih (fun d hd => h d (by simp [hd]))]

theorem hasSub_cons_eq (p : List Char) (c : Char) (t : List Char) :
    hasSub p (c :: t) = (matchPre eqCS p (c :: t) || hasSub p t) := by
  by_cases hm : matchPre eqCS p (c :: t)
  · simp [hasSub, splitAtSubBy, hm]
  · cases hrec : splitAtSubBy eqCS p t with
    | none => simp [hasSub, splitAtSubBy, hm, hrec]
    | some pr =>
      obtain ⟨a, b⟩ := pr
      simp [hasSub, splitAtSubBy, hm, hrec]

theorem hasSub_append_of_right (p v : List Char) (h : hasSub p v = true) :
    ∀ u, hasSub p (u ++ v) = true := by
  intro u
  induction u with
  | nil => simpa
  | cons c u ih => simpa using hasSub_cons_of p c (u ++ v) ih

theorem hasSub_append_of_left (p : List Char) :
    ∀ u v, hasSub p u = true → hasSub p (u ++ v) = true := by
  intro u
  induction u with
  | nil =>
    intro v h
    by_cases hm : matchPre eqCS p []
    · exact hasSub_of_matchPre p ([] ++ v) (by simpa using matchPre_append_mono eqCS p [] v hm)
    · simp [hasSub, splitAtSubBy, hm] at h
  | cons c u ih =>
    intro v h
    rw [hasSub_cons_eq] at h
    rcases Bool.or_eq_true_iff.mp h with h1 | h2
    · exact hasSub_of_matchPre p ((c :: u) ++ v)
        (matchPre_append_mono eqCS p (c :: u) v h1)
    · simpa using hasSub_cons_of p c (u ++ v) (ih v h2)

theorem hasSub_infix_mono (p m s : List Char) (hm : hasSub p m = true)
    (h : ∃ u v, s = u ++ m ++ v) : hasSub p s = true := by
  obtain ⟨u, v, rfl⟩ := h
  have h1 : hasSub p (m ++ v) = true := hasSub_append_of_left p m v hm
  simpa using hasSub_append_of_right p (m ++ v) h1 u

theorem hasSub_before_first (p : List Char) (hp : p ≠ []) :
    ∀ s a b, splitAtSubBy eqCS p s = some (a, b) → hasSub p a = false := by
  intro s
  induction s with
  | nil =>
    intro a b h
    cases p with
    | nil => exact absurd rfl hp
    | cons p0 pr => simp [splitAtSubBy, matchPre] at h
  | cons c t ih =>
    intro a b h
    by_cases hm : matchPre eqCS p (c :: t)
    · simp [splitAtSubBy, hm] at h
      obtain ⟨rfl, rfl⟩ := h
      cases p with
      | nil => exact absurd rfl hp
      | cons p0 pr => simp [hasSub, splitAtSubBy, matchPre]
    · cases hrec : splitAtSubBy eqCS p t with
      | none => simp [splitAtSubBy, hm, hrec] at h
      | some pr =>
        obtain ⟨a', b'⟩ := pr
        simp [splitAtSubBy, hm, hrec] at h
        obtain ⟨rfl, rfl⟩ := h
        rw [hasSub_cons_eq]
        have h1 : hasSub p a' = false := ih a' b' hrec
        have h2 : matchPre eqCS p (c :: a') = false := by
          by_contra hcon
          rw [Bool.not_eq_false] at hcon
          obtain ⟨tt, htt, _, _⟩ := splitAtSubBy_eq_some eqCS p t a' b' hrec
          have h3 : matchPre eqCS p ((c :: a') ++ tt) = true :=
            matchPre_append_mono eqCS p (c :: a') tt hcon
          rw [show (c :: a') ++ tt = c :: t from by rw [htt]; rfl] at h3
          exact absurd h3 hm
        simp [h1, h2]

/-! ### Helper lemmas: character provenance through the sanitizer steps -/

theorem splitAtSubBy_chars (eqv : Char → Char → Bool) (p s a b : List Char)
    (h : splitAtSubBy eqv p s = some (a, b)) :
    (∀ c ∈ a, c ∈ s) ∧ (∀ c ∈ b, c ∈ s) := by
  obtain ⟨t, rfl, _, rfl⟩ := splitAtSubBy_eq_some eqv p _ a b h
  exact ⟨fun c hc => List.mem_append.mpr (Or.inl hc),
    fun c hc => List.mem_append.mpr (Or.inr (List.mem_of_mem_drop hc))⟩

theorem reSubThinkClosedAux_chars :
    ∀ fuel s c, c ∈ reSubThinkClosedAux fuel s → c ∈ s := by
  intro fuel
  induction fuel with
  | zero => intro s c hc; exact hc
  | succ fuel ih =>
    intro s c hc
    simp only [reSubThinkClosedAux] at hc
    cases h1 : splitAtSubBy eqCI thinkOpenPat s with
    | none => rw [h1] at hc; exact hc
    | some pr1 =>
      obtain ⟨a, rest⟩ := pr1
      simp only [h1] at hc
      cases h2 : splitAtSubBy eqCI thinkClosePat rest with
      | none => simp only [h2] at hc; exact hc
      | some pr2 =>
        obtain ⟨x, after⟩ := pr2
        simp only [h2] at hc
        rcases List.mem_append.mp hc with hca | hcr
        · exact (splitAtSubBy_chars eqCI thinkOpenPat s a rest h1).1 c hca
        · exact (splitAtSubBy_chars eqCI thinkOpenPat s a rest h1).2 c
            ((splitAtSubBy_chars eqCI thinkClosePat rest x after h2).2 c (ih after c hcr))

theorem reSubThinkClosed_chars (s : List Char) (c : Char)
    (h : c ∈ reSubThinkClosed s) : c ∈ s :=
  reSubThinkClosedAux_chars s.length s c h

theorem reSubThinkOpenToEnd_chars (s : List Char) (c : Char)
    (h : c ∈ reSubThinkOpenToEnd s) : c ∈ s := by
  unfold reSubThinkOpenToEnd at h
  cases h1 : splitAtSubBy eqCI thinkOpenPat s with
  | none => rw [h1] at h; exact h
  | some pr =>
    obtain ⟨a, b⟩ := pr
    rw [h1] at h
    exact (splitAtSubBy_chars eqCI thinkOpenPat s a b h1).1 c h

theorem pyLstrip_chars (s : List Char) (c : Char) (h : c ∈ pyLstrip s) : c ∈ s :=
  ((List.dropWhile_sublist pyIsSpace).mem h :)

theorem pyRstrip_chars : ∀ (s : List Char) (c : Char), c ∈ pyRstrip s → c ∈ s := by
  intro s
  induction s with
  | nil => intro c hc; exact hc
  | cons c0 r ih =>
    intro c hc
    unfold pyRstrip at hc
    by_cases hcond : (pyRstrip r).isEmpty && pyIsSpace c0
    · simp [hcond] at hc
    · simp only [hcond, if_neg, Bool.false_eq_true, not_false_iff] at hc
      rcases List.mem_cons.mp hc with rfl | h2
      · exact List.mem_cons_self _ _
      · exact List.mem_cons_of_mem _ (ih c h2)

theorem pyStrip_chars (s : List Char) (c : Char) (h : c ∈ pyStrip s) : c ∈ s :=
  pyRstrip_chars s c (pyLstrip_chars (pyRstrip s) c h)

theorem stripLeadingCodeFence_chars (s : List Char) (c : Char)
    (h : c ∈ stripLeadingCodeFence s) : c ∈ s := by
  unfold stripLeadingCodeFence at h
  cases h1 : splitAtSubBy eqCS "```markdown".toList s with
  | none => rw [h1] at h; exact h
  | some pr =>
    obtain ⟨a, b⟩ := pr
    rw [h1] at h
    exact (splitAtSubBy_chars eqCS _ s a b h1).2 c
      ((List.dropWhile_sublist pyIsSpace).mem h)

theorem stripLeadingPageIntro_chars (s : List Char) (c : Char)
    (h : c ∈ stripLeadingPageIntro s) : c ∈ s := by
  unfold stripLeadingPageIntro at h
  cases h1 : splitAtSubBy eqCS "第".toList s with
  | none => rw [h1] at h; exact h
  | some pr1 =>
    obtain ⟨a, rest⟩ := pr1
    simp only [h1] at h
    cases h2 : splitAtSubBy eqCS "页的内容如下：".toList rest with
    | none => simp only [h2] at h; exact h
    | some pr2 =>
      obtain ⟨x, after⟩ := pr2
      simp only [h2] at h
      exact (splitAtSubBy_chars eqCS _ s a rest h1).2 c
        ((splitAtSubBy_chars eqCS _ rest x after h2).2 c
          ((List.dropWhile_sublist pyIsSpace).mem h))

theorem pySplitlinesAux_chars :
    ∀ (s : List Char) (prevCR : Bool) (cur m : List Char),
      m ∈ pySplitlinesAux prevCR cur s → ∀ c ∈ m, c ∈ cur ∨ c ∈ s := by
  intro s
  induction s with
  | nil =>
    intro prevCR cur m hm c hc
    by_cases hcur : cur.isEmpty
    · simp [pySplitlinesAux, hcur] at hm
    · simp [pySplitlinesAux, hcur] at hm
      subst hm
      exact Or.inl (List.mem_reverse.mp hc)
  | cons c0 rest ih =>
    intro prevCR cur m hm c hc
    simp only [pySplitlinesAux] at hm
    split_ifs at hm with h1 h2 h3
    · rcases ih false cur m hm c hc with h | h
      · exact Or.inl h
      · exact Or.inr (List.mem_cons_of_mem _ h)
    · rcases List.mem_cons.mp hm with rfl | hm2
      · exact Or.inl (List.mem_reverse.mp hc)
      · rcases ih true [] m hm2 c hc with h | h
        · simp at h
        · exact Or.inr (List.mem_cons_of_mem _ h)
    · rcases List.mem_cons.mp hm with rfl | hm2
      · exact Or.inl (List.mem_reverse.mp hc)
      · rcases ih false [] m hm2 c hc with h | h
        · simp at h
        · exact Or.inr (List.mem_cons_of_mem _ h)
    · rcases ih false (c0 :: cur) m hm c hc with h | h
      · rcases List.mem_cons.mp h with rfl | h2
        · exact Or.inr (List.mem_cons_self _ _)
        · exact Or.inl h2
      · exact Or.inr (List.mem_cons_of_mem _ h)

theorem pySplitlines_chars (s m : List Char) (hm : m ∈ pySplitlines s) :
    ∀ c ∈ m, c ∈ s := by
  intro c hc
  rcases pySplitlinesAux_chars s false [] m hm c hc with h | h
  · simp at h
  · exact h

theorem cleanLinesGo_subset :
    ∀ (ls : List (List Char)) (prev : Option (List Char)) (l : List Char),
      l ∈ cleanLinesGo prev ls → l ∈ ls := by
  intro ls
  induction ls with
  | nil => intro prev l h; simp [cleanLinesGo] at h
  | cons line rest ih =>
    intro prev l h
    simp only [cleanLinesGo] at h
    split_ifs at h <;>
      first
      | (rcases List.mem_cons.mp h with rfl | h2
         · exact List.mem_cons_self _ _
         · exact List.mem_cons_of_mem _ (ih _ _ h2))
      | exact List.mem_cons_of_mem _ (ih _ _ h)

theorem joinNL_chars : ∀ (ls : List (List Char)) (c : Char),
    c ∈ joinNL ls → (∃ l ∈ ls, c ∈ l) ∨ c = '\n' := by
  intro ls
  induction ls with
  | nil => intro c hc; simp [joinNL] at hc
  | cons l ls ih =>
    intro c hc
    cases ls with
    | nil => exact Or.inl ⟨l, by simp, hc⟩
    | cons l2 ls2 =>
      rw [show joinNL (l :: l2 :: ls2) = l ++ '\n' :: joinNL (l2 :: ls2) from rfl] at hc
      rcases List.mem_append.mp hc with h1 | h2
      · exact Or.inl ⟨l, by simp, h1⟩
      · rcases List.mem_cons.mp h2 with rfl | h3
        · exact Or.inr rfl
        · rcases ih c h3 with ⟨l', hl', hc'⟩ | rfl
          · exact Or.inl ⟨l', by simp [hl'], hc'⟩
          · exact Or.inr rfl

theorem collapseRunsAux_chars : ∀ (s : List Char) (n : Nat) (c : Char),
    c ∈ collapseRunsAux n s → c ∈ s ∨ c = '\n' := by
  intro s
  induction s with
  | nil =>
    intro n c hc
    simp only [collapseRunsAux] at hc
    exact Or.inr (List.eq_of_mem_replicate hc)
  | cons c0 r ih =>
    intro n c hc
    simp only [collapseRunsAux] at hc
    by_cases h0 : c0 == '\n'
    · rw [if_pos h0] at hc
      rcases ih (n + 1) c hc with h | h
      · exact Or.inl (List.mem_cons_of_mem _ h)
      · exact Or.inr h
    · rw [if_neg h0] at hc
      rcases List.mem_append.mp hc with h1 | h2
      · exact Or.inr (List.eq_of_mem_replicate h1)
      · rcases List.mem_cons.mp h2 with rfl | h3
        · exact Or.inl (List.mem_cons_self _ _)
        · rcases ih 0 c h3 with h | h
          · exact Or.inl (List.mem_cons_of_mem _ h)
          · exact Or.inr h

theorem clean_output_text_chars (raw : List Char) (c : Char)
    (h : c ∈ clean_output_text raw) : c ∈ raw ∨ c = '\n' := by
  unfold clean_output_text at h
  have h1 := stripLeadingPageIntro_chars _ c h
  have h2 := stripLeadingCodeFence_chars _ c h1
  have h3 := pyStrip_chars _ c h2
  rcases collapseRunsAux_chars _ 0 c h3 with h4 | h4
  · rcases joinNL_chars _ c h4 with ⟨l, hl, hc⟩ | h5
    · have h6 := cleanLinesGo_subset _ none l hl
      have h7 := pySplitlines_chars _ l h6 c hc
      exact Or.inl (reSubThinkClosed_chars raw c (reSubThinkOpenToEnd_chars _ c h7))
    · exact Or.inr h5
  · exact Or.inr h4

/-! ### Helper lemmas: structure of `pySplitlines` -/

theorem prepL_nil_arg (X : List (List Char)) : prepL [] X = X := by
  cases X <;> simp [prepL]

theorem prepL_prepL (p q : List Char) (X : List (List Char)) :
    prepL p (prepL q X) = prepL (p ++ q) X := by
  cases X with
  | nil =>
    by_cases hq : q.isEmpty
    · have : q = [] := List.isEmpty_iff.mp hq
      subst this
      simp [prepL]
    · have : q ≠ [] := fun h => hq (by simp [h])
      simp [prepL, hq, this]
  | cons l ls => simp [prepL]

theorem pySplitlinesAux_prepL : ∀ (s cur : List Char),
    pySplitlinesAux false cur s = prepL cur.reverse (pySplitlinesAux false [] s) := by
  intro s
  induction s with
  | nil =>
    intro cur
    by_cases hc : cur.isEmpty
    · have : cur = [] := List.isEmpty_iff.mp hc
      subst this
      simp [pySplitlinesAux, prepL]
    · have hne : cur.reverse ≠ [] := by
        simp only [ne_eq, List.reverse_eq_nil_iff]
        exact fun h => hc (by simp [h])
      simp [pySplitlinesAux, hc, prepL, List.isEmpty_iff, hne]
  | cons c0 rest ih =>
    intro cur
    simp only [pySplitlinesAux, Bool.false_and, Bool.false_eq_true, if_false]
    by_cases h1 : c0 == '\r'
    · simp [h1, prepL]
    · simp only [h1, Bool.false_eq_true, if_false]
      by_cases h2 : isLineBreakChar c0
      · simp [h2, prepL]
      · simp only [h2, Bool.false_eq_true, if_false]
        rw [ih (c0 :: cur), ih [c0], prepL_prepL]
        simp

theorem pySplitlinesAux_nl_cons (cur w : List Char) :
    pySplitlinesAux false cur ('\n' :: w) = cur.reverse :: pySplitlinesAux false [] w := rfl

theorem pySplitlines_nl (s : List Char) :
    pySplitlines ('\n' :: s) = [] :: pySplitlines s := rfl

theorem nonbreak_ne_cr (c : Char) (hc : isLineBreakChar c = false) : (c == '\r') = false := by
  cases hb : c == '\r'
  · rfl
  · have : c = '\r' := beq_iff_eq.mp hb
    subst this
    simp [isLineBreakChar] at hc

theorem pySplitlines_cons_nonbreak (c : Char) (s : List Char)
    (hc : isLineBreakChar c = false) :
    pySplitlines (c :: s) = prepL [c] (pySplitlines s) := by
  have hcr := nonbreak_ne_cr c hc
  show pySplitlinesAux false [] (c :: s) = _
  rw [show pySplitlinesAux false [] (c :: s) = pySplitlinesAux false [c] s from by
    simp [pySplitlinesAux, hcr, hc]]
  exact pySplitlinesAux_prepL s [c]

theorem pySplitlinesAux_append_nonbreak :
    ∀ (k : List Char), (∀ c ∈ k, isLineBreakChar c = false) → ∀ (cur t : List Char),
      pySplitlinesAux false cur (k ++ t) = pySplitlinesAux false (k.reverse ++ cur) t := by
  intro k
  induction k with
  | nil => intro _ cur t; simp
  | cons c k' ih =>
    intro hk cur t
    have hc : isLineBreakChar c = false := hk c (by simp)
    have hcr := nonbreak_ne_cr c hc
    show pySplitlinesAux false cur (c :: (k' ++ t)) = _
    rw [show pySplitlinesAux false cur (c :: (k' ++ t)) =
        pySplitlinesAux false (c :: cur) (k' ++ t) from by
      simp [pySplitlinesAux, hcr, hc]]
    rw [ih (fun d hd => hk d (by simp [hd])) (c :: cur) t]
    simp

theorem pySplitlines_breakfree (k : List Char)
    (hk : ∀ c ∈ k, isLineBreakChar c = false) :
    pySplitlines k = if k.isEmpty then [] else [k] := by
  show pySplitlinesAux false [] k = _
  rw [show k = k ++ [] from by simp, pySplitlinesAux_append_nonbreak k hk [] []]
  by_cases h : k.isEmpty
  · have : k = [] := List.isEmpty_iff.mp h
    subst this
    simp [pySplitlinesAux]
  · have hne : (k.reverse ++ []).isEmpty = false := by
      simp only [List.append_nil]
      cases k with
      | nil => simp at h
      | cons a l => simp
    simp only [pySplitlinesAux, hne, Bool.false_eq_true, if_false, List.append_nil,
      List.reverse_reverse, h]
    have hkne : k ≠ [] := fun hh => h (by simp [hh])
    simp [h, hkne]

theorem pySplitlines_append_line (k : List Char)
    (hk : ∀ c ∈ k, isLineBreakChar c = false) (w : List Char) :
    pySplitlines (k ++ '\n' :: w) = k :: pySplitlines w := by
  show pySplitlinesAux false [] (k ++ '\n' :: w) = _
  rw [pySplitlinesAux_append_nonbreak k hk [] ('\n' :: w), List.append_nil,
    pySplitlinesAux_nl_cons]
  simp [pySplitlines]

theorem pySplitlinesAux_eq_nil_cur :
    ∀ (s : List Char) (prevCR : Bool) (cur : List Char),
      pySplitlinesAux prevCR cur s = [] → cur = [] := by
  intro s
  induction s with
  | nil =>
    intro prevCR cur h
    by_cases hc : cur.isEmpty
    · exact List.isEmpty_iff.mp hc
    · simp [pySplitlinesAux, hc] at h
  | cons c0 rest ih =>
    intro prevCR cur h
    simp only [pySplitlinesAux] at h
    split_ifs at h with h1 h2 h3
    · exact ih false cur h
    · have := ih false (c0 :: cur) h
      simp at this

theorem pySplitlines_eq_nil (s : List Char) (h : pySplitlines s = []) : s = [] := by
  cases s with
  | nil => rfl
  | cons c0 rest =>
    exfalso
    by_cases h2 : c0 == '\r'
    · simp only [pySplitlines, pySplitlinesAux, Bool.false_and, Bool.false_eq_true,
        if_false, h2, if_true] at h
      simp at h
    · by_cases h3 : isLineBreakChar c0
      · simp only [pySplitlines, pySplitlinesAux, Bool.false_and, Bool.false_eq_true,
          if_false, h2, h3, if_true] at h
        simp at h
      · simp only [pySplitlines, pySplitlinesAux, Bool.false_and, Bool.false_eq_true,
          if_false, h2, h3] at h
        have := pySplitlinesAux_eq_nil_cur rest false [c0] h
        simp at this

theorem pySplitlines_breakfree_lines :
    ∀ (s : List Char) (prevCR : Bool) (cur : List Char),
      (∀ c ∈ cur, isLineBreakChar c = false) →
      ∀ m ∈ pySplitlinesAux prevCR cur s, ∀ c ∈ m, isLineBreakChar c = false := by
  intro s
  induction s with
  | nil =>
    intro prevCR cur hcur m hm c hc
    by_cases h : cur.isEmpty
    · simp [pySplitlinesAux, h] at hm
    · simp [pySplitlinesAux, h] at hm
      subst hm
      exact hcur c (List.mem_reverse.mp hc)
  | cons c0 rest ih =>
    intro prevCR cur hcur m hm c hc
    simp only [pySplitlinesAux] at hm
    split_ifs at hm with h1 h2 h3
    · exact ih false cur hcur m hm c hc
    · rcases List.mem_cons.mp hm with rfl | hm2
      · exact hcur c (List.mem_reverse.mp hc)
      · exact ih true [] (by simp) m hm2 c hc
    · rcases List.mem_cons.mp hm with rfl | hm2
      · exact hcur c (List.mem_reverse.mp hc)
      · exact ih false [] (by simp) m hm2 c hc
    · refine ih false (c0 :: cur) ?_ m hm c hc
      intro d hd
      rcases List.mem_cons.mp hd with rfl | hd2
      · simpa using h3
      · exact hcur d hd2

theorem pySplitlines_line_breakfree (s m : List Char) (hm : m ∈ pySplitlines s) :
    ∀ c ∈ m, isLineBreakChar c = false :=
  pySplitlines_breakfree_lines s false [] (by simp) m hm

theorem joinNL_prepL_single (c : Char) (X : List (List Char)) :
    joinNL (prepL [c] X) = c :: joinNL X := by
  cases X with
  | nil => simp [prepL, joinNL]
  | cons l ls =>
    cases ls with
    | nil => simp [prepL, joinNL]
    | cons l2 ls2 => simp [prepL, joinNL]

theorem joinNL_cons_of_ne_nil (l : List Char) (ls : List (List Char)) (h : ls ≠ []) :
    joinNL (l :: ls) = l ++ '\n' :: joinNL ls := by
  cases ls with
  | nil => exact absurd rfl h
  | cons l2 ls2 => rfl

theorem joinNL_pySplitlines : ∀ (s : List Char), onlyNL s →
    s.getLast? ≠ some '\n' → joinNL (pySplitlines s) = s := by
  intro s
  induction s with
  | nil => intro _ _; rfl
  | cons c rest ih =>
    intro h1 h2
    by_cases hc : c = '\n'
    · subst hc
      have hrest : rest ≠ [] := by
        intro h
        subst h
        simp at h2
      rw [pySplitlines_nl]
      have hlines : pySplitlines rest ≠ [] := fun h => hrest (pySplitlines_eq_nil rest h)
      rw [joinNL_cons_of_ne_nil [] _ hlines, List.nil_append]
      congr 1
      refine ih (fun d hd hbd => h1 d (by simp [hd]) hbd) ?_
      cases rest with
      | nil => exact absurd rfl hrest
      | cons r rs => rwa [List.getLast?_cons_cons] at h2
    · have hbc : isLineBreakChar c = false := by
        cases hb : isLineBreakChar c
        · rfl
        · exact absurd (h1 c (by simp) hb) hc
      rw [pySplitlines_cons_nonbreak c rest hbc, joinNL_prepL_single]
      congr 1
      cases rest with
      | nil => rfl
      | cons r rs =>
        refine ih (fun d hd hbd => h1 d (by simp [hd]) hbd) ?_
        rwa [List.getLast?_cons_cons] at h2

theorem mem_pySplitlines_joinNL :
    ∀ (ks : List (List Char)), (∀ k ∈ ks, ∀ c ∈ k, isLineBreakChar c = false) →
      ∀ m ∈ pySplitlines (joinNL ks), m ∈ ks := by
  intro ks
  induction ks with
  | nil =>
    intro _ m hm
    simp [joinNL, pySplitlines, pySplitlinesAux] at hm
  | cons k ks' ih =>
    intro hbf m hm
    cases ks' with
    | nil =>
      rw [show joinNL [k] = k from rfl,
        pySplitlines_breakfree k (hbf k (by simp))] at hm
      split_ifs at hm with h
      · simp at hm
      · simp at hm
        simp [hm]
    | cons k2 ks2 =>
      rw [joinNL_cons_of_ne_nil k _ (by simp),
        pySplitlines_append_line k (hbf k (by simp))] at hm
      rcases List.mem_cons.mp hm with rfl | hm2
      · simp
      · exact List.mem_cons_of_mem _ (ih (fun l hl => hbf l (by simp [hl])) m hm2)

/-! ### Helper lemmas: Python strip -/

theorem dropWhile_idem (p : Char → Bool) :
    ∀ l : List Char, (l.dropWhile p).dropWhile p = l.dropWhile p := by
  intro l
  induction l with
  | nil => rfl
  | cons c r ih =>
    by_cases hc : p c
    · simp [List.dropWhile_cons, hc, ih]
    · simp [List.dropWhile_cons, hc]

theorem pyLstrip_idem (s : List Char) : pyLstrip (pyLstrip s) = pyLstrip s :=
  dropWhile_idem pyIsSpace s

theorem pyRstrip_cons_pos (c : Char) (r : List Char)
    (h : ((pyRstrip r).isEmpty && pyIsSpace c) = true) : pyRstrip (c :: r) = [] := by
  show (if ((pyRstrip r).isEmpty && pyIsSpace c) = true then [] else c :: pyRstrip r) = []
  rw [if_pos h]

theorem pyRstrip_cons_neg (c : Char) (r : List Char)
    (h : ¬ ((pyRstrip r).isEmpty && pyIsSpace c) = true) :
    pyRstrip (c :: r) = c :: pyRstrip r := by
  show (if ((pyRstrip r).isEmpty && pyIsSpace c) = true then [] else c :: pyRstrip r) =
    c :: pyRstrip r
  rw [if_neg h]

theorem pyRstrip_idem : ∀ s : List Char, pyRstrip (pyRstrip s) = pyRstrip s := by
  intro s
  induction s with
  | nil => rfl
  | cons c r ih =>
    by_cases hcond : ((pyRstrip r).isEmpty && pyIsSpace c) = true
    · rw [pyRstrip_cons_pos c r hcond]
      rfl
    · rw [pyRstrip_cons_neg c r hcond]
      have hcond2 : ¬ ((pyRstrip (pyRstrip r)).isEmpty && pyIsSpace c) = true := by
        rwa [ih]
      rw [pyRstrip_cons_neg c (pyRstrip r) hcond2, ih]

theorem pyLstrip_cons_pos (c : Char) (r : List Char) (h : pyIsSpace c = true) :
    pyLstrip (c :: r) = pyLstrip r := by
  simp [pyLstrip, List.dropWhile_cons, h]

theorem pyLstrip_cons_neg (c : Char) (r : List Char) (h : pyIsSpace c = false) :
    pyLstrip (c :: r) = c :: r := by
  simp [pyLstrip, List.dropWhile_cons, h]

theorem pyLstrip_rstrip_comm : ∀ s : List Char,
    pyRstrip (pyLstrip s) = pyLstrip (pyRstrip s) := by
  intro s
  induction s with
  | nil => rfl
  | cons c r ih =>
    by_cases hc : pyIsSpace c = true
    · rw [pyLstrip_cons_pos c r hc, ih]
      by_cases hre : (pyRstrip r).isEmpty = true
      · rw [pyRstrip_cons_pos c r (by simp [hre, hc]), List.isEmpty_iff.mp hre]
      · rw [pyRstrip_cons_neg c r (by simp [hre]), pyLstrip_cons_pos c _ hc]
    · have hc' : pyIsSpace c = false := by simpa using hc
      rw [pyLstrip_cons_neg c r hc', pyRstrip_cons_neg c r (by simp [hc']),
        pyLstrip_cons_neg c _ hc']

theorem pyStrip_idem (s : List Char) : pyStrip (pyStrip s) = pyStrip s := by
  show pyLstrip (pyRstrip (pyLstrip (pyRstrip s))) = pyLstrip (pyRstrip s)
  rw [pyLstrip_rstrip_comm (pyRstrip s), pyLstrip_idem, pyRstrip_idem]

theorem pyStrip_cons_space (c : Char) (s : List Char) (hc : pyIsSpace c = true) :
    pyStrip (c :: s) = pyStrip s := by
  show pyLstrip (pyRstrip (c :: s)) = pyLstrip (pyRstrip s)
  by_cases hre : (pyRstrip s).isEmpty = true
  · rw [pyRstrip_cons_pos c s (by simp [hre, hc]), List.isEmpty_iff.mp hre]
  · rw [pyRstrip_cons_neg c s (by simp [hre]), pyLstrip_cons_pos c _ hc]

theorem pyStrip_lstrip (s : List Char) : pyStrip (pyLstrip s) = pyStrip s := by
  show pyLstrip (pyRstrip (pyLstrip s)) = pyLstrip (pyRstrip s)
  rw [pyLstrip_rstrip_comm, pyLstrip_idem]

theorem pyStrip_rstrip (s : List Char) : pyStrip (pyRstrip s) = pyStrip s := by
  show pyLstrip (pyRstrip (pyRstrip s)) = pyLstrip (pyRstrip s)
  rw [pyRstrip_idem]

theorem pyRstrip_decomp : ∀ s : List Char, ∃ v, s = pyRstrip s ++ v := by
  intro s
  induction s with
  | nil => exact ⟨[], rfl⟩
  | cons c r ih =>
    obtain ⟨v, hv⟩ := ih
    by_cases hcond : ((pyRstrip r).isEmpty && pyIsSpace c) = true
    · exact ⟨c :: r, by rw [pyRstrip_cons_pos c r hcond]; rfl⟩
    · refine ⟨v, ?_⟩
      rw [pyRstrip_cons_neg c r hcond]
      exact congrArg (c :: ·) hv

theorem pyStrip_decomp (s : List Char) : ∃ u v, s = u ++ pyStrip s ++ v := by
  obtain ⟨v, hv⟩ := pyRstrip_decomp s
  refine ⟨(pyRstrip s).takeWhile pyIsSpace, v, ?_⟩
  conv_lhs => rw [hv]
  have h1 : pyStrip s = (pyRstrip s).dropWhile pyIsSpace := rfl
  rw [h1, List.append_assoc]
  rw [show (pyRstrip s).takeWhile pyIsSpace ++ ((pyRstrip s).dropWhile pyIsSpace ++ v) =
      ((pyRstrip s).takeWhile pyIsSpace ++ (pyRstrip s).dropWhile pyIsSpace) ++ v from
    (List.append_assoc _ _ _).symm]
  rw [List.takeWhile_append_dropWhile]

theorem pyRstrip_getLast : ∀ s : List Char,
    pyRstrip s = [] ∨ ∃ c, (pyRstrip s).getLast? = some c ∧ pyIsSpace c = false := by
  intro s
  induction s with
  | nil => exact Or.inl rfl
  | cons c r ih =>
    by_cases hcond : ((pyRstrip r).isEmpty && pyIsSpace c) = true
    · exact Or.inl (pyRstrip_cons_pos c r hcond)
    · right
      rw [pyRstrip_cons_neg c r hcond]
      rcases ih with h | ⟨d, hd, hds⟩
      · have hc : pyIsSpace c = false := by
          rw [h] at hcond
          simpa using hcond
        rw [h]
        exact ⟨c, by simp, hc⟩
      · have hne : pyRstrip r ≠ [] := by
          intro hh
          rw [hh] at hd
          simp at hd
        obtain ⟨x, xs, hxx⟩ := List.exists_cons_of_ne_nil hne
        rw [hxx, List.getLast?_cons_cons]
        rw [hxx] at hd
        exact ⟨d, hd, hds⟩

theorem getLast?_dropWhile (p : Char → Bool) : ∀ l : List Char,
    List.dropWhile p l = [] ∨
      (List.dropWhile p l ≠ [] ∧ (List.dropWhile p l).getLast? = l.getLast?) := by
  intro l
  induction l with
  | nil => exact Or.inl rfl
  | cons c r ih =>
    by_cases hc : p c = true
    · rw [List.dropWhile_cons, if_pos hc]
      rcases ih with h | ⟨hne, hl⟩
      · exact Or.inl h
      · right
        refine ⟨hne, ?_⟩
        rw [hl]
        have hrne : r ≠ [] := by
          intro hh
          subst hh
          exact hne rfl
        obtain ⟨x, xs, hxx⟩ := List.exists_cons_of_ne_nil hrne
        rw [hxx, List.getLast?_cons_cons]
    · rw [List.dropWhile_cons, if_neg hc]
      exact Or.inr ⟨List.cons_ne_nil _ _, rfl⟩

theorem pyStrip_getLast_not_nl (s : List Char) :
    (pyStrip s).getLast? ≠ some '\n' := by
  intro hcon
  have h1 : pyStrip s = (pyRstrip s).dropWhile pyIsSpace := rfl
  rcases getLast?_dropWhile pyIsSpace (pyRstrip s) with h | ⟨_, hl⟩
  · rw [h1, h] at hcon
    simp at hcon
  · rw [h1, hl] at hcon
    rcases pyRstrip_getLast s with h2 | ⟨d, hd, hds⟩
    · rw [h2] at hcon
      simp at hcon
    · rw [hd] at hcon
      have : d = '\n' := by injection hcon
      subst this
      simp [pyIsSpace] at hds

/-! ### Helper lemmas: newline-run collapsing -/

theorem beq_nl_symm_false (c : Char) (h : (c == '\n') = false) : ('\n' == c) = false :=
  beq_eq_false_iff_ne.mpr (Ne.symm (beq_eq_false_iff_ne.mp h))

theorem matchPre_nl3_false_one (c : Char) (t : List Char) (h : ('\n' == c) = false) :
    matchPre eqCS nl3 (c :: t) = false := by
  simp [nl3, matchPre, eqCS, h]

theorem matchPre_nl3_false_two (c : Char) (t : List Char) (h : ('\n' == c) = false) :
    matchPre eqCS nl3 ('\n' :: c :: t) = false := by
  simp [nl3, matchPre, eqCS, h]

theorem matchPre_nl3_false_three (c : Char) (t : List Char) (h : ('\n' == c) = false) :
    matchPre eqCS nl3 ('\n' :: '\n' :: c :: t) = false := by
  simp [nl3, matchPre, eqCS, h]

theorem hasSub_nl3_cons_nonl (c : Char) (t : List Char) (hc : (c == '\n') = false) :
    hasSub nl3 (c :: t) = hasSub nl3 t := by
  rw [hasSub_cons_eq, matchPre_nl3_false_one c t (beq_nl_symm_false c hc), Bool.false_or]

theorem collapse_noTriple : ∀ (s : List Char) (n : Nat),
    hasSub nl3 (collapseRunsAux n s) = false := by
  intro s
  induction s with
  | nil =>
    intro n
    simp only [collapseRunsAux]
    have hmin : min n 2 = 0 ∨ min n 2 = 1 ∨ min n 2 = 2 := by omega
    rcases hmin with h | h | h <;> rw [h] <;> decide
  | cons c0 r ih =>
    intro n
    simp only [collapseRunsAux]
    by_cases h0 : (c0 == '\n') = true
    · rw [if_pos h0]
      exact ih (n + 1)
    · rw [if_neg h0]
      have h0' : (c0 == '\n') = false := by simpa using h0
      have hsymm := beq_nl_symm_false c0 h0'
      have hcons : hasSub nl3 (c0 :: collapseRunsAux 0 r) = false := by
        rw [hasSub_nl3_cons_nonl c0 _ h0']
        exact ih 0
      have hmin : min n 2 = 0 ∨ min n 2 = 1 ∨ min n 2 = 2 := by omega
      rcases hmin with h | h | h <;> rw [h]
      · simpa using hcons
      · rw [show List.replicate 1 '\n' ++ c0 :: collapseRunsAux 0 r =
            '\n' :: c0 :: collapseRunsAux 0 r from by simp]
        rw [hasSub_cons_eq, matchPre_nl3_false_two c0 _ hsymm, Bool.false_or]
        exact hcons
      · rw [show List.replicate 2 '\n' ++ c0 :: collapseRunsAux 0 r =
            '\n' :: '\n' :: c0 :: collapseRunsAux 0 r from by simp [List.replicate]]
        rw [hasSub_cons_eq, matchPre_nl3_false_three c0 _ hsymm, Bool.false_or]
        rw [hasSub_cons_eq, matchPre_nl3_false_two c0 _ hsymm, Bool.false_or]
        exact hcons

theorem collapse_id_of_noTriple : ∀ (s : List Char) (n : Nat), n ≤ 2 →
    hasSub nl3 (List.replicate n '\n' ++ s) = false →
    collapseRunsAux n s = List.replicate n '\n' ++ s := by
  intro s
  induction s with
  | nil =>
    intro n hn _
    simp only [collapseRunsAux]
    rw [Nat.min_eq_left hn]
    simp
  | cons c0 r ih =>
    intro n hn hns
    simp only [collapseRunsAux]
    by_cases h0 : (c0 == '\n') = true
    · rw [if_pos h0]
      have hc0 : c0 = '\n' := beq_iff_eq.mp h0
      subst hc0
      have heq : List.replicate n '\n' ++ '\n' :: r = List.replicate (n + 1) '\n' ++ r := by
        rw [List.replicate_succ']
        simp
      have hn1 : n + 1 ≤ 2 := by
        by_contra hcon
        have hn2 : n = 2 := by omega
        subst hn2
        have hm : matchPre eqCS nl3 (List.replicate 2 '\n' ++ '\n' :: r) = true := by
          simp [nl3, matchPre, eqCS, List.replicate]
        have h4 := hasSub_of_matchPre nl3 _ hm
        rw [h4] at hns
        simp at hns
      rw [ih (n + 1) hn1 (by rw [← heq]; exact hns), heq]
    · rw [if_neg h0]
      rw [Nat.min_eq_left hn]
      have hsub : hasSub nl3 r = false := by
        by_contra hcon
        rw [Bool.not_eq_false] at hcon
        have h5 := hasSub_append_of_right nl3 r hcon (List.replicate n '\n' ++ [c0])
        rw [show (List.replicate n '\n' ++ [c0]) ++ r =
            List.replicate n '\n' ++ c0 :: r from by simp] at h5
        rw [h5] at hns
        simp at hns
      rw [ih 0 (by omega) (by simpa using hsub)]
      simp

theorem collapseRuns_id_of_noTriple (s : List Char) (h : hasSub nl3 s = false) :
    collapseRuns s = s := by
  have h2 := collapse_id_of_noTriple s 0 (by omega) (by simpa using h)
  simpa using h2

theorem collapseRunsAux_walk : ∀ (k : List Char), (∀ c ∈ k, (c == '\n') = false) →
    ∀ t, collapseRunsAux 0 (k ++ t) = k ++ collapseRunsAux 0 t := by
  intro k
  induction k with
  | nil => intro _ t; rfl
  | cons c k' ih =>
    intro hk t
    have hc : (c == '\n') = false := hk c (by simp)
    rw [List.cons_append]
    simp only [collapseRunsAux, hc, Bool.false_eq_true, if_false]
    rw [ih (fun d hd => hk d (by simp [hd])) t]
    simp

theorem join_snoc_line (l : List Char) (Y : List (List Char)) :
    ∃ Z, (∀ k ∈ Z, k = l ∨ k = [] ∨ k ∈ Y) ∧ joinNL Z = l ++ '\n' :: joinNL Y := by
  cases Y with
  | nil =>
    refine ⟨[l, []], ?_, ?_⟩
    · intro k hk
      rcases List.mem_cons.mp hk with rfl | hk2
      · exact Or.inl rfl
      · simp at hk2
        subst hk2
        exact Or.inr (Or.inl rfl)
    · rw [joinNL_cons_of_ne_nil l [[]] (by simp)]
      rfl
  | cons y ys =>
    refine ⟨l :: y :: ys, ?_, ?_⟩
    · intro k hk
      rcases List.mem_cons.mp hk with rfl | hk2
      · exact Or.inl rfl
      · exact Or.inr (Or.inr hk2)
    · rw [joinNL_cons_of_ne_nil l (y :: ys) (by simp)]

theorem collapse_join : ∀ (ks : List (List Char)),
    (∀ k ∈ ks, ∀ c ∈ k, (c == '\n') = false) → ∀ n : Nat,
    ∃ ks2, (∀ k ∈ ks2, k = [] ∨ k ∈ ks) ∧
      collapseRunsAux n (joinNL ks) = List.replicate (min n 2) '\n' ++ joinNL ks2 := by
  intro ks
  induction ks with
  | nil =>
    intro _ n
    exact ⟨[], by simp, by simp [joinNL, collapseRunsAux]⟩
  | cons k ks' ih =>
    intro hbf n
    cases ks' with
    | nil =>
      cases k with
      | nil => exact ⟨[], by simp, by simp [joinNL, collapseRunsAux]⟩
      | cons c k' =>
        have hc : (c == '\n') = false := hbf (c :: k') (by simp) c (by simp)
        refine ⟨[c :: k'], ?_, ?_⟩
        · intro l hl
          simp at hl
          subst hl
          right
          simp
        · show collapseRunsAux n (c :: k') = _
          simp only [collapseRunsAux, hc, Bool.false_eq_true, if_false]
          have hw := collapseRunsAux_walk k'
            (fun d hd => hbf (c :: k') (by simp) d (by simp [hd])) []
          rw [List.append_nil] at hw
          rw [hw]
          simp [collapseRunsAux, joinNL]
    | cons k2 ks2' =>
      have hbf' : ∀ l ∈ k2 :: ks2', ∀ c ∈ l, (c == '\n') = false :=
        fun l hl => hbf l (by simp [hl])
      rw [joinNL_cons_of_ne_nil k _ (by simp)]
      cases k with
      | nil =>
        rw [List.nil_append]
        rw [show collapseRunsAux n ('\n' :: joinNL (k2 :: ks2')) =
            collapseRunsAux (n + 1) (joinNL (k2 :: ks2')) from by simp [collapseRunsAux]]
        obtain ⟨Y, hY, hEq⟩ := ih hbf' (n + 1)
        by_cases hn : n ≥ 2
        · refine ⟨Y, ?_, ?_⟩
          · intro l hl
            rcases hY l hl with h | h
            · exact Or.inl h
            · exact Or.inr (by simp [h])
          · rw [hEq]
            have : min (n + 1) 2 = min n 2 := by omega
            rw [this]
        · obtain ⟨Z, hZmem, hZjoin⟩ := join_snoc_line [] Y
          refine ⟨Z, ?_, ?_⟩
          · intro l hl
            rcases hZmem l hl with h | h | h
            · exact Or.inl h
            · exact Or.inl h
            · rcases hY l h with h2 | h2
              · exact Or.inl h2
              · exact Or.inr (by simp [h2])
          · rw [hEq, hZjoin, List.nil_append]
            have h1 : min (n + 1) 2 = min n 2 + 1 := by omega
            rw [h1, List.replicate_succ']
            simp
      | cons c k' =>
        have hc : (c == '\n') = false := hbf (c :: k') (by simp) c (by simp)
        have hk' : ∀ d ∈ k', (d == '\n') = false :=
          fun d hd => hbf (c :: k') (by simp) d (by simp [hd])
        rw [List.cons_append]
        simp only [collapseRunsAux, hc, Bool.false_eq_true, if_false]
        rw [collapseRunsAux_walk k' hk' ('\n' :: joinNL (k2 :: ks2'))]
        rw [show collapseRunsAux 0 ('\n' :: joinNL (k2 :: ks2')) =
            collapseRunsAux 1 (joinNL (k2 :: ks2')) from by simp [collapseRunsAux]]
        obtain ⟨Y, hY, hEq⟩ := ih hbf' 1
        obtain ⟨Z, hZmem, hZjoin⟩ := join_snoc_line (c :: k') Y
        refine ⟨Z, ?_, ?_⟩
        · intro l hl
          rcases hZmem l hl with h | h | h
          · exact Or.inr (by simp [h])
          · exact Or.inl h
          · rcases hY l h with h2 | h2
            · exact Or.inl h2
            · exact Or.inr (by simp [h2])
        · rw [hEq, hZjoin]
          rw [show List.replicate (min 1 2) '\n' = ['\n'] from rfl]
          simp

theorem collapseRuns_joinNL (ks : List (List Char))
    (hbf : ∀ k ∈ ks, ∀ c ∈ k, (c == '\n') = false) :
    ∃ ks2, (∀ k ∈ ks2, k = [] ∨ k ∈ ks) ∧ collapseRuns (joinNL ks) = joinNL ks2 := by
  obtain ⟨ks2, hmem, hEq⟩ := collapse_join ks hbf 0
  exact ⟨ks2, hmem, by simpa using hEq⟩

/-! ### Helper lemmas: the line filter -/

theorem startsWith_head_mem (p0 : Char) (pr l : List Char)
    (h : startsWith (p0 :: pr) l = true) : p0 ∈ l := by
  cases l with
  | nil => simp [startsWith, matchPre] at h
  | cons d ds =>
    simp only [startsWith, matchPre, Bool.and_eq_true] at h
    have : p0 = d := by simpa [eqCS, beq_iff_eq] using h.1
    subst this
    simp

theorem fence_test_has_backtick (L : List Char)
    (h : (startsWith "```markdown".toList L || startsWith "```".toList L) = true) :
    '`' ∈ L := by
  rcases Bool.or_eq_true_iff.mp h with hf | hf
  · rw [show "```markdown".toList = '`' :: "``markdown".toList from rfl] at hf
    exact startsWith_head_mem '`' _ L hf
  · rw [show "```".toList = '`' :: "``".toList from rfl] at hf
    exact startsWith_head_mem '`' _ L hf

theorem keptLine_empty : keptLine [] = true := by decide

theorem keptLine_split (L : List Char) (hk : keptLine L = true) :
    isNoiseLine L = false ∧ hasPromptPhrase L = false ∧ isPathNoise L = false := by
  simpa [keptLine, Bool.and_eq_true, Bool.not_eq_true', and_assoc] using hk

theorem cleanLines_kept (ls : List (List Char)) :
    (∀ l ∈ ls, '`' ∉ l) →
    ∀ prev, ∀ l ∈ cleanLinesGo prev ls, keptLine (pyStrip l) = true := by
  induction ls with
  | nil => intro _ prev l hl; simp [cleanLinesGo] at hl
  | cons line rest ih =>
    intro hbt prev l hl
    have hbt' : ∀ l ∈ rest, '`' ∉ l := fun l h => hbt l (by simp [h])
    have hbtl : '`' ∉ line := hbt line (by simp)
    simp only [cleanLinesGo] at hl
    by_cases h1 : (pyStrip line).isEmpty
    · rw [if_pos h1] at hl
      rcases List.mem_cons.mp hl with rfl | hl2
      · rw [List.isEmpty_iff.mp h1]
        exact keptLine_empty
      · exact ih hbt' _ l hl2
    · rw [if_neg h1] at hl
      by_cases h2 : isNoiseLine (pyStrip line) = true
      · rw [if_pos h2] at hl
        exact ih hbt' _ l hl
      · rw [if_neg h2] at hl
        by_cases h3 : hasPromptPhrase (pyStrip line) = true
        · rw [if_pos h3] at hl
          exact ih hbt' _ l hl
        · rw [if_neg h3] at hl
          have h4 : ¬ ((startsWith "```markdown".toList (pyStrip line) ||
              startsWith "```".toList (pyStrip line)) = true) := by
            intro hcon
            exact hbtl (pyStrip_chars line '`' (fence_test_has_backtick _ hcon))
          rw [if_neg h4] at hl
          by_cases h5 : isPathNoise (pyStrip line) = true
          · rw [if_pos h5] at hl
            exact ih hbt' _ l hl
          · rw [if_neg h5] at hl
            rcases List.mem_cons.mp hl with rfl | hl2
            · simp [keptLine, Bool.not_eq_true', and_assoc] at h2 h3 h5 ⊢
              exact ⟨h2, h3, h5⟩
            · exact ih hbt' _ l hl2

theorem cleanLines_fixpoint (ls : List (List Char)) :
    (∀ l ∈ ls, keptLine (pyStrip l) = true ∧ '`' ∉ l) →
    ∀ prev, cleanLinesGo prev ls = ls := by
  induction ls with
  | nil => intro _ prev; rfl
  | cons line rest ih =>
    intro h prev
    obtain ⟨hk, hbt⟩ := h line (by simp)
    have h' : ∀ l ∈ rest, keptLine (pyStrip l) = true ∧ '`' ∉ l :=
      fun l hl => h l (by simp [hl])
    obtain ⟨hk1, hk2, hk3⟩ := keptLine_split _ hk
    simp only [cleanLinesGo]
    by_cases h1 : (pyStrip line).isEmpty
    · rw [if_pos h1, ih h' _]
    · rw [if_neg h1]
      rw [if_neg (by simp [hk1])]
      rw [if_neg (by simp [hk2])]
      have hfence : ¬ ((startsWith "```markdown".toList (pyStrip line) ||
          startsWith "```".toList (pyStrip line)) = true) := by
        intro hcon
        exact hbt (pyStrip_chars line '`' (fence_test_has_backtick _ hcon))
      rw [if_neg hfence]
      rw [if_neg (by simp [hk3])]
      rw [ih h' _]

/-! ### Helper lemmas: whole-string strip versus split lines -/

theorem break_isSpace (c : Char) (h : isLineBreakChar c = true) : pyIsSpace c = true := by
  simp only [isLineBreakChar, Bool.or_eq_true, beq_iff_eq] at h
  rcases h with (((((((((h | h) | h) | h) | h) | h) | h) | h) | h) | h) <;>
    subst h <;> decide

theorem rstripLines_cons (l : List Char) (X : List (List Char)) :
    rstripLines (l :: X) =
      match rstripLines X with
      | [] => if (pyRstrip l).isEmpty then [] else [pyRstrip l]
      | ls2 => l :: ls2 := rfl

theorem pySplitlines_lstrip : ∀ s : List Char, onlyNL s →
    pySplitlines (pyLstrip s) = lstripLines (pySplitlines s) := by
  intro s
  induction s with
  | nil => intro _; rfl
  | cons c r ih =>
    intro h1
    have h1r : onlyNL r := fun d hd hbd => h1 d (by simp [hd]) hbd
    by_cases hc : pyIsSpace c = true
    · rw [pyLstrip_cons_pos c r hc, ih h1r]
      by_cases hbc : isLineBreakChar c = true
      · have hcn : c = '\n' := h1 c (by simp) hbc
        subst hcn
        rw [pySplitlines_nl]
        rw [show lstripLines ([] :: pySplitlines r) = lstripLines (pySplitlines r) from by
          simp [lstripLines, pyLstrip]]
      · have hbc' : isLineBreakChar c = false := by simpa using hbc
        rw [pySplitlines_cons_nonbreak c r hbc']
        rcases hX : pySplitlines r with _ | ⟨h0, ls⟩
        · simp [prepL, lstripLines, pyLstrip, List.dropWhile_cons, hc]
        · rw [show prepL [c] (h0 :: ls) = (c :: h0) :: ls from by simp [prepL]]
          simp only [lstripLines, pyLstrip_cons_pos c h0 hc]
    · have hc' : pyIsSpace c = false := by simpa using hc
      have hbc : isLineBreakChar c = false := by
        cases hb : isLineBreakChar c
        · rfl
        · exact absurd (break_isSpace c hb) (by simp [hc'])
      rw [pyLstrip_cons_neg c r hc']
      rw [pySplitlines_cons_nonbreak c r hbc]
      rcases hX : pySplitlines r with _ | ⟨h0, ls⟩
      · simp [prepL, lstripLines, pyLstrip, List.dropWhile_cons, hc']
      · rw [show prepL [c] (h0 :: ls) = (c :: h0) :: ls from by simp [prepL]]
        simp only [lstripLines, pyLstrip_cons_neg c h0 hc']
        simp

theorem pySplitlines_rstrip : ∀ s : List Char, onlyNL s →
    pySplitlines (pyRstrip s) = rstripLines (pySplitlines s) := by
  intro s
  induction s with
  | nil => intro _; rfl
  | cons c r ih =>
    intro h1
    have h1r : onlyNL r := fun d hd hbd => h1 d (by simp [hd]) hbd
    by_cases hbc : isLineBreakChar c = true
    · have hcn : c = '\n' := h1 c (by simp) hbc
      subst hcn
      rw [pySplitlines_nl]
      by_cases hre : (pyRstrip r).isEmpty = true
      · rw [pyRstrip_cons_pos '\n' r (by rw [hre]; decide)]
        have hIH := ih h1r
        rw [List.isEmpty_iff.mp hre] at hIH
        rw [show pySplitlines ([] : List Char) = [] from rfl] at hIH
        rw [rstripLines_cons, ← hIH]
        rfl
      · rw [pyRstrip_cons_neg '\n' r (by simp [hre])]
        rw [pySplitlines_nl, ih h1r]
        have hne : rstripLines (pySplitlines r) ≠ [] := by
          rw [← ih h1r]
          intro hcon
          have h3 := pySplitlines_eq_nil _ hcon
          rw [h3] at hre
          simp at hre
        obtain ⟨z, zs, hz⟩ := List.exists_cons_of_ne_nil hne
        rw [rstripLines_cons, hz]
    · have hbc' : isLineBreakChar c = false := by simpa using hbc
      rw [pySplitlines_cons_nonbreak c r hbc']
      by_cases hcond : ((pyRstrip r).isEmpty && pyIsSpace c) = true
      · rw [pyRstrip_cons_pos c r hcond]
        obtain ⟨hre, hsc⟩ : (pyRstrip r).isEmpty = true ∧ pyIsSpace c = true := by
          simpa using hcond
        have hIH := ih h1r
        rw [List.isEmpty_iff.mp hre] at hIH
        rw [show pySplitlines ([] : List Char) = [] from rfl] at hIH
        rcases hX : pySplitlines r with _ | ⟨h0, ls⟩
        · rw [show prepL [c] ([] : List (List Char)) = [[c]] from by simp [prepL]]
          rw [rstripLines_cons]
          rw [show pyRstrip [c] = [] from pyRstrip_cons_pos c [] (by simp [pyRstrip, hsc])]
          rfl
        · rw [hX] at hIH
          rw [show prepL [c] (h0 :: ls) = (c :: h0) :: ls from by simp [prepL]]
          rw [rstripLines_cons] at hIH ⊢
          rcases hls : rstripLines ls with _ | ⟨z, zs⟩
          · rw [hls] at hIH
            simp only at hIH ⊢
            by_cases hh0 : (pyRstrip h0).isEmpty = true
            · rw [show pyRstrip (c :: h0) = [] from
                pyRstrip_cons_pos c h0 (by simp [hh0, hsc])]
              rfl
            · rw [if_neg hh0] at hIH
              simp at hIH
          · rw [hls] at hIH
            simp at hIH
      · rw [pyRstrip_cons_neg c r hcond]
        rw [pySplitlines_cons_nonbreak c _ hbc', ih h1r]
        rcases hX : pySplitlines r with _ | ⟨h0, ls⟩
        · have hr0 : r = [] := pySplitlines_eq_nil r hX
          subst hr0
          have hsc : pyIsSpace c = false := by
            simpa [pyRstrip] using hcond
          simp [prepL, rstripLines, pyRstrip, hsc]
        · rw [show prepL [c] (h0 :: ls) = (c :: h0) :: ls from by simp [prepL]]
          rw [rstripLines_cons h0 ls, rstripLines_cons (c :: h0) ls]
          rcases hls : rstripLines ls with _ | ⟨z, zs⟩
          · simp only
            by_cases hh0 : (pyRstrip h0).isEmpty = true
            · have hrr : pyRstrip r = [] := by
                apply pySplitlines_eq_nil
                rw [ih h1r, hX, rstripLines_cons h0 ls, hls]
                simp only
                rw [if_pos hh0]
              have hsc : pyIsSpace c = false := by
                have h5 : (pyRstrip r).isEmpty = true := by simp [hrr]
                simpa [h5] using hcond
              rw [if_pos hh0]
              rw [show pyRstrip (c :: h0) = c :: pyRstrip h0 from
                pyRstrip_cons_neg c h0 (by simp [hsc])]
              rw [List.isEmpty_iff.mp hh0]
              simp [prepL]
            · rw [if_neg hh0]
              have hcne : (pyRstrip (c :: h0)).isEmpty = false := by
                rw [pyRstrip_cons_neg c h0 (by simp [hh0])]
                simp
              rw [show (if (pyRstrip (c :: h0)).isEmpty = true then ([] : List (List Char))
                  else [pyRstrip (c :: h0)]) = [pyRstrip (c :: h0)] from by
                rw [hcne]; simp]
              rw [pyRstrip_cons_neg c h0 (by simp [hh0])]
              simp [prepL]
          · simp only
            simp [prepL]

theorem mem_lstripLines : ∀ (X : List (List Char)) (m : List Char),
    m ∈ lstripLines X → ∃ x ∈ X, pyStrip m = pyStrip x := by
  intro X
  induction X with
  | nil => intro m hm; simp [lstripLines] at hm
  | cons l ls ih =>
    intro m hm
    simp only [lstripLines] at hm
    by_cases hl : (pyLstrip l).isEmpty = true
    · rw [if_pos hl] at hm
      obtain ⟨x, hx, hsx⟩ := ih m hm
      exact ⟨x, by simp [hx], hsx⟩
    · rw [if_neg hl] at hm
      rcases List.mem_cons.mp hm with rfl | hm2
      · exact ⟨l, by simp, pyStrip_lstrip l⟩
      · exact ⟨m, by simp [hm2], rfl⟩

theorem mem_rstripLines : ∀ (X : List (List Char)) (m : List Char),
    m ∈ rstripLines X → ∃ x ∈ X, pyStrip m = pyStrip x := by
  intro X
  induction X with
  | nil => intro m hm; simp [rstripLines] at hm
  | cons l ls ih =>
    intro m hm
    rw [rstripLines_cons] at hm
    rcases hls : rstripLines ls with _ | ⟨z, zs⟩
    · rw [hls] at hm
      simp only at hm
      by_cases hl : (pyRstrip l).isEmpty = true
      · rw [if_pos hl] at hm
        simp at hm
      · rw [if_neg hl] at hm
        simp at hm
        subst hm
        exact ⟨l, by simp, pyStrip_rstrip l⟩
    · rw [hls] at hm
      simp only at hm
      rcases List.mem_cons.mp hm with rfl | hm2
      · exact ⟨m, by simp, rfl⟩
      · rw [← hls] at hm2
        obtain ⟨x, hx, hsx⟩ := ih m hm2
        exact ⟨x, by simp [hx], hsx⟩

theorem mem_pySplitlines_strip (t m : List Char) (h1 : onlyNL t)
    (hm : m ∈ pySplitlines (pyStrip t)) :
    ∃ l ∈ pySplitlines t, pyStrip m = pyStrip l := by
  have h2 : onlyNL (pyRstrip t) := fun d hd hbd => h1 d (pyRstrip_chars t d hd) hbd
  rw [show pyStrip t = pyLstrip (pyRstrip t) from rfl, pySplitlines_lstrip _ h2,
    pySplitlines_rstrip _ h1] at hm
  obtain ⟨x, hx, hsx⟩ := mem_lstripLines _ m hm
  obtain ⟨y, hy, hsy⟩ := mem_rstripLines _ x hx
  exact ⟨y, hy, hsx.trans hsy⟩

/-! ### Helper lemmas: step identities on marker-free inputs -/

theorem eqCI_lt_false (c : Char) (h : ¬ c = '<') : eqCI '<' c = false := by
  have h1 : eqCI '<' c = ('<' == c || '<' == c) := rfl
  rw [h1, Bool.or_self]
  exact beq_eq_false_iff_ne.mpr fun he => h he.symm

theorem eqCS_false_of_ne (p c : Char) (h : ¬ c = p) : eqCS p c = false :=
  beq_eq_false_iff_ne.mpr fun he => h he.symm

theorem splitAtSubBy_thinkOpen_none (s : List Char) (h : '<' ∉ s) :
    splitAtSubBy eqCI thinkOpenPat s = none := by
  rw [show thinkOpenPat = '<' :: "think>".toList from rfl]
  exact splitAtSubBy_none_of_head eqCI '<' _ s
    (fun c hc => eqCI_lt_false c (fun he => h (he ▸ hc)))

theorem reSubThinkClosed_id (s : List Char) (h : '<' ∉ s) :
    reSubThinkClosed s = s := by
  show reSubThinkClosedAux s.length s = s
  cases hl : s.length with
  | zero => rfl
  | succ n =>
    show reSubThinkClosedAux (n + 1) s = s
    simp only [reSubThinkClosedAux, splitAtSubBy_thinkOpen_none s h]

theorem reSubThinkOpenToEnd_id (s : List Char) (h : '<' ∉ s) :
    reSubThinkOpenToEnd s = s := by
  unfold reSubThinkOpenToEnd
  rw [splitAtSubBy_thinkOpen_none s h]

theorem stripLeadingCodeFence_id (s : List Char) (h : '`' ∉ s) :
    stripLeadingCodeFence s = s := by
  unfold stripLeadingCodeFence
  rw [show ("```markdown".toList : List Char) = '`' :: "``markdown".toList from rfl,
    splitAtSubBy_none_of_head eqCS '`' _ s
      (fun c hc => eqCS_false_of_ne '`' c (fun he => h (he ▸ hc)))]

theorem stripLeadingPageIntro_id (s : List Char) (h : '第' ∉ s) :
    stripLeadingPageIntro s = s := by
  unfold stripLeadingPageIntro
  rw [show ("第".toList : List Char) = '第' :: ([] : List Char) from rfl,
    splitAtSubBy_none_of_head eqCS '第' [] s
      (fun c hc => eqCS_false_of_ne '第' c (fun he => h (he ▸ hc)))]

theorem breakfree_not_nl (c : Char) (h : isLineBreakChar c = false) :
    (c == '\n') = false := by
  by_contra hcon
  rw [Bool.not_eq_false, beq_iff_eq] at hcon
  subst hcon
  exact absurd h (by decide)

theorem onlyNL_joinNL (ks : List (List Char))
    (h : ∀ k ∈ ks, ∀ c ∈ k, isLineBreakChar c = false) : onlyNL (joinNL ks) := by
  intro c hc hbc
  rcases joinNL_chars ks c hc with ⟨l, hl, hcl⟩ | h5
  · rw [h l hl c hcl] at hbc
    exact absurd hbc (by simp)
  · exact h5

theorem onlyNL_collapseRuns (s : List Char) (h : onlyNL s) :
    onlyNL (collapseRuns s) := by
  intro c hc hbc
  rcases collapseRunsAux_chars s 0 c hc with h1 | h1
  · exact h c h1 hbc
  · exact h1

theorem onlyNL_pyStrip (s : List Char) (h : onlyNL s) : onlyNL (pyStrip s) :=
  fun c hc hbc => h c (pyStrip_chars s c hc) hbc

theorem cleanCore_chars (s : List Char) (c : Char) (h : c ∈ cleanCore s) :
    c ∈ s ∨ c = '\n' := by
  unfold cleanCore at h
  have h3 := pyStrip_chars _ c h
  rcases collapseRunsAux_chars _ 0 c h3 with h4 | h4
  · rcases joinNL_chars _ c h4 with ⟨l, hl, hc2⟩ | h5
    · have h6 := cleanLinesGo_subset _ none l hl
      have h7 := pySplitlines_chars _ l h6 c hc2
      exact Or.inl (reSubThinkClosed_chars s c (reSubThinkOpenToEnd_chars _ c h7))
    · exact Or.inr h5
  · exact Or.inr h4

theorem clean_eq_cleanCore (s : List Char) (hb : '`' ∉ s) (hd : '第' ∉ s) :
    clean_output_text s = cleanCore s := by
  have hbc : '`' ∉ cleanCore s := fun hc => by
    rcases cleanCore_chars s '`' hc with h | h
    · exact hb h
    · exact absurd h (by decide)
  have hdc : '第' ∉ cleanCore s := fun hc => by
    rcases cleanCore_chars s '第' hc with h | h
    · exact hd h
    · exact absurd h (by decide)
  show stripLeadingPageIntro (stripLeadingCodeFence (cleanCore s)) = cleanCore s
  rw [stripLeadingCodeFence_id _ hbc, stripLeadingPageIntro_id _ hdc]

theorem kept_breakfree (s : List Char) :
    ∀ l ∈ cleanLines (pySplitlines s), ∀ c ∈ l, isLineBreakChar c = false :=
  fun l hl => pySplitlines_line_breakfree s l (cleanLinesGo_subset _ none l hl)

theorem onlyNL_cleanCore (s : List Char) : onlyNL (cleanCore s) := by
  unfold cleanCore
  exact onlyNL_pyStrip _ (onlyNL_collapseRuns _ (onlyNL_joinNL _ (kept_breakfree _)))

theorem collapseRuns_noTriple (x : List Char) : hasSub nl3 (collapseRuns x) = false :=
  collapse_noTriple x 0

theorem pyStrip_noTriple (x : List Char) (h : hasSub nl3 x = false) :
    hasSub nl3 (pyStrip x) = false := by
  by_contra hcon
  rw [Bool.not_eq_false] at hcon
  obtain ⟨u, v, hdec⟩ := pyStrip_decomp x
  exact absurd (hasSub_infix_mono nl3 _ x hcon ⟨u, v, hdec⟩) (by simp [h])

theorem cleanCore_noTriple (s : List Char) : hasSub nl3 (cleanCore s) = false :=
  pyStrip_noTriple _ (collapseRuns_noTriple _)

theorem cleanCore_getLast (s : List Char) : (cleanCore s).getLast? ≠ some '\n' :=
  pyStrip_getLast_not_nl _

theorem cleanCore_strip (s : List Char) : pyStrip (cleanCore s) = cleanCore s :=
  pyStrip_idem _

/-- Every line of a sanitizer output (for inputs free of the fence and
page-intro markers) would pass the line filter again: its stripped form is a
kept line. -/
theorem clean_lines_kept (s : List Char) (hb : '`' ∉ s) (hd : '第' ∉ s) :
    ∀ m ∈ pySplitlines (clean_output_text s), keptLine (pyStrip m) = true := by
  intro m hm
  rw [clean_eq_cleanCore s hb hd] at hm
  unfold cleanCore at hm
  have honly : onlyNL (collapseRuns (joinNL (cleanLines (pySplitlines
      (reSubThinkOpenToEnd (reSubThinkClosed s)))))) :=
    onlyNL_collapseRuns _ (onlyNL_joinNL _ (kept_breakfree _))
  obtain ⟨l, hl, hsl⟩ := mem_pySplitlines_strip _ m honly hm
  have hbf : ∀ k ∈ cleanLines (pySplitlines (reSubThinkOpenToEnd (reSubThinkClosed s))),
      ∀ c ∈ k, (c == '\n') = false :=
    fun k hk c hc => breakfree_not_nl c (kept_breakfree _ k hk c hc)
  obtain ⟨ks2, hks2, hw⟩ := collapseRuns_joinNL _ hbf
  rw [hw] at hl
  have hbf2 : ∀ k ∈ ks2, ∀ c ∈ k, isLineBreakChar c = false := by
    intro k hk c hc
    rcases hks2 k hk with rfl | hk2
    · simp at hc
    · exact kept_breakfree _ k hk2 c hc
  have hl2 := mem_pySplitlines_joinNL ks2 hbf2 l hl
  rcases hks2 l hl2 with rfl | hk3
  · rw [hsl]
    exact keptLine_empty
  · have hbt2 : ∀ l2 ∈ pySplitlines (reSubThinkOpenToEnd (reSubThinkClosed s)),
        '`' ∉ l2 := by
      intro l2 hl2 hcl
      exact hb (reSubThinkClosed_chars s '`'
        (reSubThinkOpenToEnd_chars _ '`' (pySplitlines_chars _ l2 hl2 '`' hcl)))
    rw [hsl]
    exact cleanLines_kept _ hbt2 none l hk3

theorem isNoiseLine_false_prompt (L : List Char) (h : isNoiseLine L = false) :
    startsWith "Prompt:".toList L = false := by
  by_contra hcon
  rw [Bool.not_eq_false] at hcon
  unfold isNoiseLine at h
  rw [hcon] at h
  simp at h

theorem isNoiseLine_false_equals (L : List Char) (h : isNoiseLine L = false) :
    (L == eqSeparatorLine) = false := by
  by_contra hcon
  rw [Bool.not_eq_false] at hcon
  unfold isNoiseLine at h
  rw [hcon] at h
  simp at h

/-- Generic leftmost-match minimality: the prefix returned by
`splitAtSubBy` contains no match of the pattern. -/
theorem splitAtSubBy_before_first (eqv : Char → Char → Bool) (p : List Char)
    (hp : p ≠ []) :
    ∀ s a b, splitAtSubBy eqv p s = some (a, b) → splitAtSubBy eqv p a = none := by
  intro s
  induction s with
  | nil =>
    intro a b h
    cases p with
    | nil => exact absurd rfl hp
    | cons p0 pr => simp [splitAtSubBy, matchPre] at h
  | cons c t ih =>
    intro a b h
    by_cases hm : matchPre eqv p (c :: t)
    · simp [splitAtSubBy, hm] at h
      obtain ⟨rfl, rfl⟩ := h
      cases p with
      | nil => exact absurd rfl hp
      | cons p0 pr => simp [splitAtSubBy, matchPre]
    · cases hrec : splitAtSubBy eqv p t with
      | none => simp [splitAtSubBy, hm, hrec] at h
      | some pr2 =>
        obtain ⟨a2, b2⟩ := pr2
        simp [splitAtSubBy, hm, hrec] at h
        obtain ⟨rfl, rfl⟩ := h
        have h1 : splitAtSubBy eqv p a2 = none := ih a2 b2 hrec
        have h2 : matchPre eqv p (c :: a2) = false := by
          by_contra hcon
          rw [Bool.not_eq_false] at hcon
          obtain ⟨tt, htt, _, _⟩ := splitAtSubBy_eq_some eqv p t a2 b2 hrec
          have h3 : matchPre eqv p ((c :: a2) ++ tt) = true :=
            matchPre_append_mono eqv p (c :: a2) tt hcon
          rw [show (c :: a2) ++ tt = c :: t from by rw [htt]; rfl] at h3
          exact absurd h3 hm
        simp [splitAtSubBy, h2, h1]

/-- After the open-to-end removal, no case-insensitive open marker remains. -/
theorem reSubThinkOpenToEnd_no_open (t : List Char) :
    splitAtSubBy eqCI thinkOpenPat (reSubThinkOpenToEnd t) = none := by
  unfold reSubThinkOpenToEnd
  cases h1 : splitAtSubBy eqCI thinkOpenPat t with
  | none => exact h1
  | some pr =>
    obtain ⟨a, b⟩ := pr
    exact splitAtSubBy_before_first eqCI thinkOpenPat (by decide) t a b h1

/-- The sanitizer is the identity on a string that is already a fixed point
of each of its stages. -/
theorem clean_fixpoint_aux (y : List Char)
    (hylt : '<' ∉ y) (hybt : '`' ∉ y) (hyd : '第' ∉ y)
    (hkeptl : ∀ l ∈ pySplitlines y, keptLine (pyStrip l) = true)
    (honly : onlyNL y) (hlast : y.getLast? ≠ some '\n')
    (hnt : hasSub nl3 y = false) (hstr : pyStrip y = y) :
    clean_output_text y = y := by
  rw [clean_eq_cleanCore y hybt hyd]
  show pyStrip (collapseRuns (joinNL (cleanLinesGo none (pySplitlines
      (reSubThinkOpenToEnd (reSubThinkClosed y)))))) = y
  rw [reSubThinkClosed_id y hylt, reSubThinkOpenToEnd_id y hylt,
    cleanLines_fixpoint (pySplitlines y)
      (fun l hl => ⟨hkeptl l hl, fun hcl => hybt (pySplitlines_chars y l hl '`' hcl)⟩) none,
    joinNL_pySplitlines y honly hlast,
    collapseRuns_id_of_noTriple y hnt, hstr]

/-! ### Claim theorems -/

/-- C1: for every PDF with `N ≥ 1` pages processed with batch size `B ≥ 1`
(and rasterization succeeding on each page), the assembled output of
`process_pdf_with_progress` contains exactly one `## 第 i 页` page section
for each `i ∈ [1, N]`, in ascending order regardless of `B`
(`pageIndices r.entries = [1, …, N]`), the batch plan partitions the pages
into `ceil(N/B)` contiguous non-overlapping batches `[k*B, min(k*B+B, N))`
(last batch possibly shorter), and the table of contents has exactly one
entry per page. -/
theorem C1_page_sections_complete (N B : Nat) (hN : 1 ≤ N) (hB : 1 ≤ B)
    (baseUrl apiKey modelName : Option (List Char))
    (rasterize : Nat → Except (List Char) Unit) (hr : ∀ p, rasterize p = .ok ())
    (inferApi inferLocal : Nat → Except (List Char) (List Char))
    (pdfName : List Char) (origUrl : Option (List Char)) :
    ∃ r : PdfOk,
      (process_pdf_with_progress N B baseUrl apiKey modelName rasterize inferApi
        inferLocal pdfName origUrl).1 = .ok r ∧
      pageIndices r.entries = List.range' 1 N ∧
      r.toc = List.range' 1 N ∧
      mkBatches N B =
        (List.range ((N + B - 1) / B)).map (fun k => (k * B, min (k * B + B) N)) := by
  have hrun := processPdfCore_all_ok N B rasterize hr
    (fun p => if useApi baseUrl apiKey modelName then inferApi p else inferLocal p)
    pdfName origUrl
  unfold process_pdf_with_progress
  rw [hrun]
  exact ⟨_, rfl, pageIndices_mkBatches N B hB _ _ _, rfl, mkBatches_eq N B hN hB⟩

theorem C1_witness :
    ∃ r : PdfOk,
      (process_pdf_with_progress 25 10 none none none (fun _ => Except.ok ())
        (fun _ => Except.ok "x".toList) (fun _ => Except.ok "x".toList)
        "doc".toList none).1 = .ok r ∧
      pageIndices r.entries = List.range' 1 25 ∧
      r.toc = List.range' 1 25 ∧
      mkBatches 25 10 =
        (List.range ((25 + 10 - 1) / 10)).map (fun k => (k * 10, min (k * 10 + 10) 25)) :=
  C1_page_sections_complete 25 10 (by decide) (by decide) none none none
    (fun _ => Except.ok ()) (fun _ => rfl)
    (fun _ => Except.ok "x".toList) (fun _ => Except.ok "x".toList) "doc".toList none

/-- C2 counterexample: on a 1-page PDF whose single page fails to rasterize
(the exception `boom` raised by `load_page`/`get_pixmap`/`save`), the whole
job aborts with that exception instead of producing a document with an
inline error section — refuting "no single-page exception ever aborts the
batch or the whole document job". -/
theorem C2_counterexample_raster_abort :
    (process_pdf_with_progress 1 10 none none none
      (fun _ => Except.error "boom".toList)
      (fun _ => Except.ok "x".toList) (fun _ => Except.ok "x".toList)
      "doc".toList none).1 = Except.error "boom".toList := rfl

/-- C2 (amended): an exception raised by a page's *inference* call is
recorded as that page's inline error section and processing continues — with
rasterization succeeding everywhere the job completes with every page index
present exactly once in order, each page contributing `pageOk` with the
sanitized text or `pageErr` with the exception message; however an exception
raised while *rasterizing* a page (which happens before the per-page `try`)
aborts the whole job with that exception. -/
theorem C2_inference_failures_recorded (N B : Nat) (hB : 1 ≤ B)
    (f : Nat → Except (List Char) (List Char)) (pdfName : List Char)
    (origUrl : Option (List Char)) :
    ∃ r : PdfOk,
      (processPdfCore N B (fun _ => Except.ok ()) f pdfName origUrl).1 = .ok r ∧
      pageIndices r.entries = List.range' 1 N ∧
      pageEntries r.entries = (List.range' 0 N).map (pageEntryOf f) ∧
      (∀ p msg, p < N → f p = .error msg → Entry.pageErr (p + 1) msg ∈ r.entries) ∧
      (∀ rast e, 1 ≤ N → rast 0 = Except.error e →
        (processPdfCore N B rast f pdfName origUrl).1 = .error e) := by
  have hrun := processPdfCore_all_ok N B (fun _ => Except.ok ()) (fun _ => rfl) f
    pdfName origUrl
  rw [hrun]
  refine ⟨_, rfl, pageIndices_mkBatches N B hB _ _ _, pageEntries_mkBatches N B hB _ _ _, ?_, ?_⟩
  · intro p msg hp hmsg
    have hmem : pageEntryOf f p ∈ pageEntries
        (batchesEntries f (mkBatches N B).length 0 (mkBatches N B)) := by
      rw [pageEntries_mkBatches N B hB]
      exact List.mem_map.mpr ⟨p, List.mem_range'_1.mpr ⟨Nat.zero_le p, by omega⟩, rfl⟩
    have : pageEntryOf f p = Entry.pageErr (p + 1) msg := by
      simp [pageEntryOf, hmsg]
    rw [this] at hmem
    exact List.mem_of_mem_filter hmem
  · intro rast e hN h0
    exact processPdfCore_raster_abort N B hN hB rast e h0 f pdfName origUrl

theorem C2_witness :
    ∃ r : PdfOk,
      (processPdfCore 5 10 (fun _ => Except.ok ())
        (fun p => if p = 2 then Except.error "to".toList else Except.ok "raw".toList)
        "doc".toList none).1 = .ok r ∧
      pageIndices r.entries = List.range' 1 5 ∧
      pageEntries r.entries = (List.range' 0 5).map
        (pageEntryOf (fun p => if p = 2 then Except.error "to".toList
          else Except.ok "raw".toList)) ∧
      (∀ p msg, p < 5 →
        (if p = 2 then Except.error "to".toList else Except.ok "raw".toList) =
          Except.error msg →
        Entry.pageErr (p + 1) msg ∈ r.entries) ∧
      (∀ rast e, 1 ≤ 5 → rast 0 = Except.error e →
        (processPdfCore 5 10 rast
          (fun p => if p = 2 then Except.error "to".toList else Except.ok "raw".toList)
          "doc".toList none).1 = .error e) :=
  C2_inference_failures_recorded 5 10 (by decide)
    (fun p => if p = 2 then Except.error "to".toList else Except.ok "raw".toList)
    "doc".toList none

/-- C3: on a 5-page PDF where only page 3's inference call raises (message
`m`) and every other page succeeds, `process_pdf_with_progress` still
returns a complete document with all 5 page sections in order, page 3's
section being the inline error section (whose rendered text contains the
`❌` marker and the exception message) and the other pages their normally
sanitized content; the job does not abort. -/
theorem C3_single_page_failure (m : List Char) (c : Nat → List Char)
    (f : Nat → Except (List Char) (List Char))
    (h3 : f 2 = .error m) (hok : ∀ p, p ≠ 2 → f p = .ok (c p))
    (rasterize : Nat → Except (List Char) Unit) (hr : ∀ p, rasterize p = .ok ())
    (pdfName : List Char) (origUrl : Option (List Char)) :
    ∃ r : PdfOk,
      (process_pdf_with_progress 5 10 none none none rasterize f f pdfName origUrl).1 =
        .ok r ∧
      r.entries = [Entry.pageOk 1 (clean_output_text (c 0)),
                   Entry.pageOk 2 (clean_output_text (c 1)),
                   Entry.pageErr 3 m,
                   Entry.pageOk 4 (clean_output_text (c 3)),
                   Entry.pageOk 5 (clean_output_text (c 4))] ∧
      hasSub "❌".toList (renderEntry (Entry.pageErr 3 m)) = true ∧
      hasSub m (renderEntry (Entry.pageErr 3 m)) = true := by
  have hrun := processPdfCore_all_ok 5 10 rasterize hr
    (fun p => if useApi none none none then f p else f p) pdfName origUrl
  unfold process_pdf_with_progress
  rw [hrun]
  have hb : mkBatches 5 10 = [(0, 5)] := rfl
  have hr5 : List.range' 0 5 = [0, 1, 2, 3, 4] := rfl
  refine ⟨_, rfl, ?_, ?_, ?_⟩
  · rw [hb]
    show batchesEntries _ 1 0 [(0, 5)] = _
    simp only [batchesEntries, List.isEmpty_nil]
    rw [show (5 : Nat) - 0 = 5 from rfl, hr5]
    simp [pageEntryOf, useApi, truthyOpt, h3, hok 0 (by decide), hok 1 (by decide),
      hok 3 (by decide), hok 4 (by decide)]
  · apply hasSub_of_infix
    refine ⟨"## 第 ".toList ++ natChars 3 ++ " 页\n\n".toList,
      " ".toList ++ pageErrMsg 3 m ++ "\n\n---\n".toList, ?_⟩
    have hx : " 页\n\n".toList ++ ("❌".toList ++ " ".toList) = " 页\n\n❌ ".toList := rfl
    rw [renderEntry, ← hx]
    simp [List.append_assoc]
  · apply hasSub_of_infix
    refine ⟨"## 第 ".toList ++ natChars 3 ++ " 页\n\n❌ ".toList ++ "处理第 ".toList ++
        natChars 3 ++ " 页时出错: ".toList,
      "\n\n---\n".toList, ?_⟩
    rw [renderEntry, pageErrMsg]
    simp [List.append_assoc]

theorem C3_witness :
    ∃ r : PdfOk,
      (process_pdf_with_progress 5 10 none none none (fun _ => Except.ok ())
        (fun p => if p = 2 then Except.error "timeout".toList else Except.ok "raw".toList)
        (fun p => if p = 2 then Except.error "timeout".toList else Except.ok "raw".toList)
        "doc".toList none).1 = .ok r ∧
      r.entries = [Entry.pageOk 1 (clean_output_text "raw".toList),
                   Entry.pageOk 2 (clean_output_text "raw".toList),
                   Entry.pageErr 3 "timeout".toList,
                   Entry.pageOk 4 (clean_output_text "raw".toList),
                   Entry.pageOk 5 (clean_output_text "raw".toList)] ∧
      hasSub "❌".toList (renderEntry (Entry.pageErr 3 "timeout".toList)) = true ∧
      hasSub "timeout".toList (renderEntry (Entry.pageErr 3 "timeout".toList)) = true :=
  C3_single_page_failure "timeout".toList (fun _ => "raw".toList)
    (fun p => if p = 2 then Except.error "timeout".toList else Except.ok "raw".toList)
    rfl (fun p hp => by simp [hp]) (fun _ => Except.ok ()) (fun _ => rfl)
    "doc".toList none

/-- C5 counterexample: with no contention, a successful `save_configs` run
performs a *direct in-place write* of the live config file followed by a
read-back verification — it never writes a temporary file and never performs
an atomic move — refuting "every write … writes the new content to a
temporary location … then atomically swaps the file into place rather than
overwriting the live config file in place". -/
theorem C5_counterexample_direct_write :
    (save_configs defaultConfigs (fun _ => Method1Res.success)
      (fun _ => Method2Res.success) none).result = Except.ok () ∧
    (save_configs defaultConfigs (fun _ => Method1Res.success)
      (fun _ => Method2Res.success) none).ops = [COp.directWrite, COp.verifyRead] ∧
    COp.tmpWrite ∉ (save_configs defaultConfigs (fun _ => Method1Res.success)
      (fun _ => Method2Res.success) none).ops ∧
    COp.atomicMove ∉ (save_configs defaultConfigs (fun _ => Method1Res.success)
      (fun _ => Method2Res.success) none).ops := by
  refine ⟨rfl, rfl, ?_, ?_⟩ <;> decide

/-- C5 (amended): `save_configs` first attempts a *direct in-place* write of
the config file with fsync and read-back verification (on success the
read-back equals the written structured content and no temp file is used);
only when the direct write's verification fails does it fall back to the
temp-file + atomic-move + read-back-verify path; a persistent resource-busy
error on the direct write is retried with backoff for exactly 3 attempts and
then surfaces the user-facing "配置文件持续锁定" error detail. -/
theorem C5_save_configs_behaviour :
    (∀ (cfg : Configs) (m2 : Nat → Method2Res) (prior : Option Configs),
      save_configs cfg (fun _ => Method1Res.success) m2 prior =
        { result := .ok (), file := some cfg,
          ops := [COp.directWrite, COp.verifyRead] }) ∧
    (∀ (cfg : Configs) (msgf : Nat → List Char) (m2 : Nat → Method2Res)
      (prior : Option Configs),
      save_configs cfg (fun a => Method1Res.busy (msgf a)) m2 prior =
        { result := .error (cantSavePre ++ persistentLockMsg), file := prior,
          ops := [COp.directWrite, COp.directWrite, COp.directWrite] }) ∧
    (∀ (cfg : Configs) (msg : List Char) (prior : Option Configs),
      save_configs cfg (fun _ => Method1Res.fallthru msg)
        (fun _ => Method2Res.success) prior =
        { result := .ok (), file := some cfg,
          ops := [COp.directWrite, COp.verifyRead, COp.tmpWrite, COp.atomicMove,
                  COp.finalVerify] }) := by
  refine ⟨fun cfg m2 prior => rfl, fun cfg msgf m2 prior => rfl, fun cfg msg prior => ?_⟩
  show saveAttemptLoop cfg _ _ [0, 1, 2] prior [] = _
  simp [saveAttemptLoop]

/-- C8: on every exit path of `process_pdf_with_progress` — normal completion
as well as a propagated exception — the `finally` clause removes the scratch
directory created for the rasterized page images together with every page
image inside it before control returns. -/
theorem C8_scratch_removed (N B : Nat) (baseUrl apiKey modelName : Option (List Char))
    (rasterize : Nat → Except (List Char) Unit)
    (inferApi inferLocal : Nat → Except (List Char) (List Char))
    (pdfName : List Char) (origUrl : Option (List Char)) :
    (process_pdf_with_progress N B baseUrl apiKey modelName rasterize inferApi
      inferLocal pdfName origUrl).2 =
      { scratchDirExists := false, images := [] } := by
  unfold process_pdf_with_progress processPdfCore
  rcases h : (processBatches rasterize
      (fun p => if useApi baseUrl apiKey modelName then inferApi p else inferLocal p)
      (mkBatches N B).length ⟨true, []⟩ 0 (mkBatches N B)).1 with e | entries <;>
    simp [h]

/-- C9: the remote HTTP backend is invoked iff all three of `base_url`,
`api_key` and `model_name` are provided non-empty; otherwise the pipeline
falls back to the local subprocess backend, and the choice is fixed for the
whole call (the same single backend serves every page of a PDF job, and the
single-image pipeline reduces to the selected backend's result). -/
theorem C9_backend_selection :
    (∀ baseUrl apiKey modelName : Option (List Char),
      useApi baseUrl apiKey modelName = true ↔
        (∃ b, baseUrl = some b ∧ b ≠ []) ∧ (∃ k, apiKey = some k ∧ k ≠ []) ∧
        (∃ m, modelName = some m ∧ m ≠ [])) ∧
    (∀ (N B : Nat) (baseUrl apiKey modelName : Option (List Char))
      (rasterize : Nat → Except (List Char) Unit)
      (inferApi inferLocal : Nat → Except (List Char) (List Char))
      (pdfName : List Char) (origUrl : Option (List Char)),
      process_pdf_with_progress N B baseUrl apiKey modelName rasterize inferApi
        inferLocal pdfName origUrl =
      processPdfCore N B rasterize
        (if useApi baseUrl apiKey modelName then inferApi else inferLocal)
        pdfName origUrl) ∧
    (∀ (baseUrl apiKey modelName : Option (List Char))
      (apiRes localRes : Except (List Char) (List Char)) (origUrl : Option (List Char)),
      process_single_image baseUrl apiKey modelName apiRes localRes origUrl =
        singleImageFrom (if useApi baseUrl apiKey modelName then apiRes else localRes)
          origUrl) := by
  refine ⟨?_, ?_, ?_⟩
  · intro b k m
    rw [useApi, Bool.and_eq_true, Bool.and_eq_true,
      truthyOpt_eq_true, truthyOpt_eq_true, truthyOpt_eq_true]
    tauto
  · intro N B b k m rast api loc nm u
    unfold process_pdf_with_progress
    cases h : useApi b k m <;> simp [h]
  · intro b k m api loc u
    rfl

/-- C10: a missing, unreadable or JSON-invalid history/config file makes
`load_history` return `[]` and `load_saved_configs` return the
`{models: [], prompts: []}` default, with no exception (both functions are
total on these inputs); consequently the next save after such a failed load
replaces whatever was previously on disk: the delete-history endpoint writes
`[]` over the bad file, and saving a preset after a failed config load
persists exactly the default plus the new entry. -/
theorem C10_load_defaults_and_replace :
    (load_history .absent = [] ∧ load_history .readError = [] ∧
      load_history .parseError = []) ∧
    (load_saved_configs .absent = defaultConfigs ∧
      load_saved_configs .readError = defaultConfigs ∧
      load_saved_configs .parseError = defaultConfigs) ∧
    (∀ rid, delete_history_record .absent rid = .value [] ∧
      delete_history_record .readError rid = .value [] ∧
      delete_history_record .parseError rid = .value []) ∧
    (∀ (mc : List Char) (m2 : Nat → Method2Res) (prior : Option Configs),
      (save_configs (save_config_endpoint_model .parseError mc)
        (fun _ => Method1Res.success) m2 prior).file =
        some { models := [mc], prompts := [] }) := by
  exact ⟨⟨rfl, rfl, rfl⟩, ⟨rfl, rfl, rfl⟩, fun rid => ⟨rfl, rfl, rfl⟩,
    fun mc m2 prior => rfl⟩

/-- C4 counterexample: `clean_output_text` is not idempotent.  On the input
`"a```markdownPrompt: b"` the first pass keeps the line (it neither starts
with a fence nor with `Prompt:`), and only the final prefix substitution of
`main.py:355` cuts it down to `"Prompt: b"`; a second pass then drops that
line in the line filter, yielding the empty string. -/
theorem C4_counterexample_not_idempotent :
    clean_output_text (clean_output_text "a```markdownPrompt: b".toList) ≠
      clean_output_text "a```markdownPrompt: b".toList := by decide

/-- C4 (amended): `clean_output_text` is idempotent on every input that
contains none of the marker characters `'<'`, `` '`' `` and `'第'` (so that
the think-block substitutions and the two trailing prefix substitutions of
`main.py:355-356` cannot fire): re-applying the sanitizer to such a cleaned
text yields the same text. -/
theorem C4_idempotent_no_markers (s : List Char)
    (h1 : '<' ∉ s) (h2 : '`' ∉ s) (h3 : '第' ∉ s) :
    clean_output_text (clean_output_text s) = clean_output_text s := by
  have hych : ∀ c, c ∈ clean_output_text s → c ∈ s ∨ c = '\n' :=
    fun c hc => clean_output_text_chars s c hc
  have hylt : '<' ∉ clean_output_text s := fun hc => by
    rcases hych '<' hc with h | h
    · exact h1 h
    · exact absurd h (by decide)
  have hybt : '`' ∉ clean_output_text s := fun hc => by
    rcases hych '`' hc with h | h
    · exact h2 h
    · exact absurd h (by decide)
  have hyd : '第' ∉ clean_output_text s := fun hc => by
    rcases hych '第' hc with h | h
    · exact h3 h
    · exact absurd h (by decide)
  refine clean_fixpoint_aux (clean_output_text s) hylt hybt hyd
    (fun l hl => clean_lines_kept s h2 h3 l hl) ?_ ?_ ?_ ?_
  · rw [clean_eq_cleanCore s h2 h3]
    exact onlyNL_cleanCore s
  · rw [clean_eq_cleanCore s h2 h3]
    exact cleanCore_getLast s
  · rw [clean_eq_cleanCore s h2 h3]
    exact cleanCore_noTriple s
  · rw [clean_eq_cleanCore s h2 h3]
    exact cleanCore_strip s

/-- C4 witness: the amended idempotence theorem applied to the concrete
marker-free input `"Hello\n\n\n\nPrompt: x\nWorld"`. -/
theorem C4_witness :
    ('<' ∉ "Hello\n\n\n\nPrompt: x\nWorld".toList) ∧
    ('`' ∉ "Hello\n\n\n\nPrompt: x\nWorld".toList) ∧
    ('第' ∉ "Hello\n\n\n\nPrompt: x\nWorld".toList) ∧
    clean_output_text (clean_output_text "Hello\n\n\n\nPrompt: x\nWorld".toList) =
      clean_output_text "Hello\n\n\n\nPrompt: x\nWorld".toList :=
  ⟨by decide, by decide, by decide,
    C4_idempotent_no_markers _ (by decide) (by decide) (by decide)⟩

/-- C6: the two reasoning-block substitutions of `main.py:293-295` behave as
specified: `"<think>internal</think>Hello"` sanitizes to `"Hello"`,
`"<think>partial"` sanitizes to the empty string, and for every input,
after the closed-block removal followed by the open-to-end removal no
(case-insensitive) `<think>` marker remains anywhere in the text. -/
theorem C6_reasoning_blocks_removed :
    clean_output_text "<think>internal</think>Hello".toList = "Hello".toList ∧
    clean_output_text "<think>partial".toList = [] ∧
    ∀ s : List Char,
      splitAtSubBy eqCI thinkOpenPat (reSubThinkOpenToEnd (reSubThinkClosed s)) = none :=
  ⟨by decide, by decide, fun s => reSubThinkOpenToEnd_no_open (reSubThinkClosed s)⟩

/-- C7 counterexample: a pure dash separator line is NOT removed by the
sanitizer — the line filter of `main.py:311` only drops the equals-sign
separator `"=========="`, so `clean_output_text "-----"` still contains the
line `"-----"`, a non-empty all-dash line. -/
theorem C7_counterexample_dash_line :
    clean_output_text "-----".toList = "-----".toList ∧
    isDashSeparator (pyStrip "-----".toList) = true ∧
    "-----".toList ∈ pySplitlines (clean_output_text "-----".toList) :=
  ⟨by decide, by decide, by decide⟩

/-- C7 (amended): for every input containing neither `` '`' `` nor `'第'`
(so the trailing prefix substitutions of `main.py:355-356` cannot cut a
kept line in half), no line of the sanitizer output strips to something
beginning with `"Prompt:"`, and no line strips to the equals-sign separator
`"=========="` (the separator the code actually filters; dash separators
are not filtered, per the counterexample). -/
theorem C7_no_prompt_or_equals_lines (s : List Char) (hb : '`' ∉ s) (hd : '第' ∉ s) :
    ∀ m ∈ pySplitlines (clean_output_text s),
      startsWith "Prompt:".toList (pyStrip m) = false ∧
      (pyStrip m == eqSeparatorLine) = false := by
  intro m hm
  have hk := clean_lines_kept s hb hd m hm
  obtain ⟨hn, _, _⟩ := keptLine_split _ hk
  exact ⟨isNoiseLine_false_prompt _ hn, isNoiseLine_false_equals _ hn⟩

/-- C7 witness: the amended theorem applied at the concrete input
`"A\nPrompt: x\n==========\nok"` and its surviving output line `"ok"`. -/
theorem C7_witness :
    startsWith "Prompt:".toList (pyStrip "ok".toList) = false ∧
    (pyStrip "ok".toList == eqSeparatorLine) = false :=
  C7_no_prompt_or_equals_lines "A\nPrompt: x\n==========\nok".toList
    (by decide) (by decide) "ok".toList (by decide)

end V2M
